import Mathlib

/-!
Verification development for the 9sheet spreadsheet core.

The Go sources are shallowly embedded: Go strings become `String`/`List Char`,
`uint32` rows become `Nat` with an explicit `2 ^ 32` bound at the parsing
boundary, `float64` cell values are modelled by exact rationals `ℚ` (the
development never relies on rounding behaviour of binary floating point),
fallible Go functions returning `(T, error)` become `Except String T`, and the
mutable `Sheet`/`Cell` pointer graph becomes an association list keyed by cell
address together with explicit state passing.  Go's recursive recalculation is
embedded with an explicit fuel parameter; fuel sufficiency is proved separately.
-/

namespace NineSheet

/-- `CellAddress` from cell.go: a column string and a row number (`uint32` in Go). -/
structure CellAddress where
  col : String
  row : Nat
deriving DecidableEq

def maxColDigits : Nat := 2

def lastCol : String := "ZZ"

/-- Model of Go's `regexp.FindStringSubmatch` for the pattern
`([A-Za-z]+)([0-9]+)`: find the leftmost position where a maximal run of ASCII
letters is immediately followed by a digit, and return that letter run together
with the maximal digit run following it. -/
def findAddrMatch : List Char → Option (List Char × List Char)
  | [] => none
  | c :: rest =>
    if c.isAlpha then
      match rest.dropWhile Char.isAlpha with
      | d :: _ =>
        if d.isDigit then
          some (c :: rest.takeWhile Char.isAlpha,
                (rest.dropWhile Char.isAlpha).takeWhile Char.isDigit)
        else findAddrMatch rest
      | [] => findAddrMatch rest
    else findAddrMatch rest

/-- Numeric value of a run of decimal digits (Go `strconv.ParseUint` core). -/
def digitsToNat (l : List Char) : Nat :=
  l.foldl (fun a c => a * 10 + (c.toNat - 48)) 0

/-- `CellAddr` from cell.go: parse a cell address using the (unanchored) regular
expression `([A-Za-z]+)([0-9]+)`, upper-case the column, reject columns longer
than `maxColDigits` letters and rows that do not fit in a `uint32`. -/
def CellAddr (addr : String) : Except String CellAddress :=
  match findAddrMatch addr.data with
  | none => .error ("Invalid cell address '" ++ addr ++ "'")
  | some (letters, digits) =>
    let colstr := String.mk (letters.map Char.toUpper)
    if colstr.length > maxColDigits then
      .error ("Invalid cell address '" ++ addr ++ "': Column address too big")
    else
      let row := digitsToNat digits
      if row < 2 ^ 32 then .ok ⟨colstr, row⟩
      else .error ("Invalid cell address '" ++ addr ++ "': value out of range")

/-- The byte-by-byte comparison loop inside `LessCol` (runs on equal-length
columns; first differing byte decides). -/
def colLexLess : List Char → List Char → Bool
  | [], _ => false
  | _ :: _, [] => false
  | a :: as, b :: bs => if a < b then true else if b < a then false else colLexLess as bs

/-- `LessCol` from cell.go: order columns by length first, then byte by byte. -/
def CellAddress.LessCol (ca ca2 : CellAddress) : Bool :=
  if ca.col.length < ca2.col.length then true
  else if ca.col.length > ca2.col.length then false
  else colLexLess ca.col.data ca2.col.data

/-- `LEQCol` from cell.go. -/
def CellAddress.LEQCol (ca ca2 : CellAddress) : Bool :=
  if ca.col = ca2.col then true else ca.LessCol ca2

/-- The rune-increment loop of `NextCol`, run on the reversed column: turn
trailing `Z`s into `A`s, then bump the next rune; if every rune was `Z`,
a fresh `A` is prepended (appears at the end of the reversed list). -/
def incColRev : List Char → List Char
  | [] => ['A']
  | c :: rest =>
    if c = 'Z' then 'A' :: incColRev rest
    else Char.ofNat (c.toNat + 1) :: rest

/-- `NextCol` from cell.go: advance the column in base 26, failing on `lastCol`.
An empty column is returned unchanged (the Go loop body never runs). -/
def CellAddress.NextCol (ca : CellAddress) : Except String CellAddress :=
  if ca.col = lastCol then .error "No more columns."
  else if ca.col.data.isEmpty then .ok ca
  else .ok ⟨String.mk (incColRev ca.col.data.reverse).reverse, ca.row⟩

/-- `String()` on `CellAddress` (cell.go): column followed by decimal row. -/
def CellAddress.str (ca : CellAddress) : String :=
  ca.col ++ Nat.repr ca.row

/-! ## The expression parser (parse.go) -/

/-- The token/operator kinds `op` from parse.go. -/
inductive Op
  | NONE | ADD | SUB | MUL | DIV | LP | RP | ID
deriving DecidableEq

/-- `token` from parse.go. -/
structure Tok where
  op : Op
  val : String
deriving DecidableEq

/-- The zero `token{}` value. -/
def zeroTok : Tok := ⟨.NONE, ""⟩

/-- `Expression` from parse.go: operator, optional children (`*Expression` in
Go), and the identifier text for `ID` nodes. -/
inductive Expression
  | mk (op : Op) (left : Option Expression) (right : Option Expression) (val : String)

def Expression.op : Expression → Op
  | .mk o _ _ _ => o

def Expression.left : Expression → Option Expression
  | .mk _ l _ _ => l

def Expression.right : Expression → Option Expression
  | .mk _ _ r _ => r

def Expression.val : Expression → String
  | .mk _ _ _ v => v

/-- `upstreamAddrs` from parse.go: the addresses referenced by `ID` nodes, in
pre-order (left before right), failing on the first unparsable identifier. -/
def Expression.upstreamAddrs : Expression → Except String (List CellAddress)
  | .mk op l r v =>
    if op = .ID then
      match CellAddr v with
      | .error e => .error e
      | .ok a => .ok [a]
    else
      match (match l with
             | none => Except.ok []
             | some le => le.upstreamAddrs) with
      | .error e => .error e
      | .ok leftas =>
        match (match r with
               | none => Except.ok []
               | some re => re.upstreamAddrs) with
        | .error e => .error e
        | .ok rightas => .ok (leftas ++ rightas)

/-- Parser state: the remaining input of the `strings.Reader` plus the one-token
lookahead `look`. -/
structure PState where
  input : List Char
  look : Tok
deriving DecidableEq

/-- Errors inside the parser: `io.EOF` is distinguished from other errors, as
the Go code compares `err == io.EOF`. -/
inductive PErr
  | eof | msg (s : String)
deriving DecidableEq

def isAlnum (c : Char) : Bool := c.isAlpha || c.isDigit

/-- `nextTok` from parse.go.  Single-rune operators, maximal alphanumeric runs
as identifiers; any other rune is consumed and reported as an error. -/
def nextTok (p : PState) : Except PErr Tok × PState :=
  if p.look.op ≠ .NONE then
    (.ok p.look, { p with look := zeroTok })
  else
    match p.input with
    | [] => (.error .eof, p)
    | rn :: rest =>
      if rn = '-' then (.ok ⟨.SUB, ""⟩, ⟨rest, p.look⟩)
      else if rn = '+' then (.ok ⟨.ADD, ""⟩, ⟨rest, p.look⟩)
      else if rn = '*' then (.ok ⟨.MUL, ""⟩, ⟨rest, p.look⟩)
      else if rn = '/' then (.ok ⟨.DIV, ""⟩, ⟨rest, p.look⟩)
      else if rn = '(' then (.ok ⟨.LP, ""⟩, ⟨rest, p.look⟩)
      else if rn = ')' then (.ok ⟨.RP, ""⟩, ⟨rest, p.look⟩)
      else if ¬ (rn.isAlpha || rn.isDigit) then
        (.error (.msg ("Unexpected rune " ++ String.mk [rn])), ⟨rest, p.look⟩)
      else
        (.ok ⟨.ID, String.mk (rn :: rest.takeWhile isAlnum)⟩,
         ⟨rest.dropWhile isAlnum, p.look⟩)

/-- `unreadToken` from parse.go: push one token back; fails if a lookahead is
already present. -/
def unreadToken (tok : Tok) (p : PState) : Except PErr Unit × PState :=
  if p.look.op ≠ .NONE then (.error (.msg "Cannot unread more than one token."), p)
  else (.ok (), { p with look := tok })

/-- `expectTok` from parse.go. -/
def expectTok (t : Tok) (p : PState) : Except PErr Unit × PState :=
  match nextTok p with
  | (.error e, p1) => (.error e, p1)
  | (.ok tok, p1) =>
    if tok ≠ t then (.error (.msg "Expected token mismatch"), p1) else (.ok (), p1)

mutual

/-- `parseSUBEXP` from parse.go: `SUBEXP = LP EXP RP | ID`. -/
def parseSUBEXP : Nat → PState → Except PErr Expression × PState
  | 0, p => (.error (.msg "out of fuel"), p)
  | fuel + 1, p =>
    match nextTok p with
    | (.error e, p1) => (.error e, p1)
    | (.ok tok, p1) =>
      match tok.op with
      | .LP =>
        match parseEXP fuel p1 with
        | (.error e, p2) => (.error e, p2)
        | (.ok exp, p2) =>
          match expectTok ⟨.RP, ""⟩ p2 with
          | (.error e, p3) => (.error e, p3)
          | (.ok _, p3) => (.ok exp, p3)
      | .ID => (.ok (.mk .ID none none tok.val), p1)
      | _ => (.error (.msg "Expected a SUBEXPR"), p1)

/-- `parseMDEXP` from parse.go: `MDEXP = MUL SUBEXP MDEXP | DIV SUBEXP MDEXP | END`.
On a non-`io.EOF` tokenizer error the Go code only compares against `io.EOF`,
keeps the zero token, falls through the switch and unreads the zero token:
the error is discarded and `left` is returned. -/
def parseMDEXP : Nat → Expression → PState → Except PErr Expression × PState
  | 0, _, p => (.error (.msg "out of fuel"), p)
  | fuel + 1, left, p =>
    match nextTok p with
    | (.error .eof, p1) => (.ok left, p1)
    | (.error (.msg _), p1) =>
      match unreadToken zeroTok p1 with
      | (.error e, p2) => (.error e, p2)
      | (.ok _, p2) => (.ok left, p2)
    | (.ok tok, p1) =>
      if tok.op = .MUL ∨ tok.op = .DIV then
        match parseSUBEXP fuel p1 with
        | (.error e, p2) => (.error e, p2)
        | (.ok ex, p2) => parseMDEXP fuel (.mk tok.op (some left) (some ex) "") p2
      else
        match unreadToken tok p1 with
        | (.error e, p2) => (.error e, p2)
        | (.ok _, p2) => (.ok left, p2)

/-- `parseMDSEXP` from parse.go: `MDSEXP = SUBEXP MDEXP`. -/
def parseMDSEXP : Nat → PState → Except PErr Expression × PState
  | 0, p => (.error (.msg "out of fuel"), p)
  | fuel + 1, p =>
    match parseSUBEXP fuel p with
    | (.error e, p1) => (.error e, p1)
    | (.ok exp, p1) => parseMDEXP fuel exp p1

/-- `parsePMSEXP` from parse.go: `PMSEXP = ADD MDSEXP PMSEXP | SUB MDSEXP PMSEXP | END`,
with the same discarded-error behaviour as `parseMDEXP`. -/
def parsePMSEXP : Nat → Expression → PState → Except PErr Expression × PState
  | 0, _, p => (.error (.msg "out of fuel"), p)
  | fuel + 1, left, p =>
    match nextTok p with
    | (.error .eof, p1) => (.ok left, p1)
    | (.error (.msg _), p1) =>
      match unreadToken zeroTok p1 with
      | (.error e, p2) => (.error e, p2)
      | (.ok _, p2) => (.ok left, p2)
    | (.ok tok, p1) =>
      if tok.op = .ADD ∨ tok.op = .SUB then
        match parseMDSEXP fuel p1 with
        | (.error e, p2) => (.error e, p2)
        | (.ok ex, p2) => parsePMSEXP fuel (.mk tok.op (some left) (some ex) "") p2
      else
        match unreadToken tok p1 with
        | (.error e, p2) => (.error e, p2)
        | (.ok _, p2) => (.ok left, p2)

/-- `parseEXP` from parse.go: `EXP = MDSEXP PMSEXP`. -/
def parseEXP : Nat → PState → Except PErr Expression × PState
  | 0, p => (.error (.msg "out of fuel"), p)
  | fuel + 1, p =>
    match parseMDSEXP fuel p with
    | (.error e, p1) => (.error e, p1)
    | (.ok exp, p1) => parsePMSEXP fuel exp p1

end

/-- `expectStr` from parse.go: read `len s` bytes and compare; the caller
ignores the result, so only the consumed reader position is observable. -/
def expectStr (r : List Char) (s : String) : Except String Unit × List Char :=
  (if String.mk (r.take s.length) = s then .ok ()
   else .error ("Expected " ++ s), r.drop s.length)

/-- Fuel that is amply sufficient for the recursive-descent parse of an input
of `n` characters (each nesting level of the mutual recursion either consumes
input or is one of boundedly many wrappers per consumed character). -/
def topFuel (n : Nat) : Nat := 8 * n + 16

/-- Running the grammar from scratch on reader contents `r`, exactly as
`ParseExpression` does after `expectStr` has consumed one byte. -/
def parseBody (r : List Char) : Except String Expression :=
  match parseEXP (topFuel r.length) { input := r, look := zeroTok } with
  | (.ok e, _) => .ok e
  | (.error .eof, _) => .error "EOF"
  | (.error (.msg m), _) => .error m

/-- `ParseExpression` from parse.go: `expectStr` reads one byte for `"="` but
its result is discarded, then the grammar is parsed from the rest. -/
def ParseExpression (eqn : String) : Except String Expression :=
  parseBody (expectStr eqn.data "=").2

/-! ## Column-order facts (for the `NextCol`/`LessCol` claims) -/

/-- Iterating `NextCol` from a starting address, recording every address
visited (stopping if `NextCol` fails). -/
def colChainFrom : Nat → CellAddress → List CellAddress
  | 0, ca => [ca]
  | n + 1, ca =>
    ca :: (match ca.NextCol with
           | .ok nxt => colChainFrom n nxt
           | .error _ => [])

/-- All 702 columns from `"A"` to `"ZZ"` in `NextCol` order. -/
def colChain : List CellAddress := colChainFrom 701 ⟨"A", 1⟩

/-- Boolean check that every adjacent pair of a list satisfies `p`. -/
def adjAll (p : CellAddress → CellAddress → Bool) : List CellAddress → Bool
  | [] => true
  | [_] => true
  | a :: b :: rest => p a b && adjAll p (b :: rest)

theorem colLexLess_self : ∀ l : List Char, colLexLess l l = false := by
  intro l
  induction l with
  | nil => rfl
  | cons c rest ih => simp [colLexLess, lt_irrefl, ih]

theorem colLexLess_trans : ∀ (a b c : List Char), a.length = b.length →
    b.length = c.length → colLexLess a b = true → colLexLess b c = true →
    colLexLess a c = true := by
  intro a
  induction a with
  | nil => intro b c _ _ h1 _; simp [colLexLess] at h1
  | cons x xs ih =>
    intro b c hab hbc h1 h2
    match b, c with
    | y :: ys, z :: zs =>
      simp only [colLexLess] at h1 h2 ⊢
      by_cases hxy : x < y
      · by_cases hyz : y < z
        · simp [lt_trans hxy hyz]
        · by_cases hzy : z < y
          · simp [hyz, hzy] at h2
          · have : y = z := le_antisymm (not_lt.mp hzy) (not_lt.mp hyz)
            subst this
            simp [hxy]
      · by_cases hyx : y < x
        · simp [hxy, hyx] at h1
        · have hx : x = y := le_antisymm (not_lt.mp hyx) (not_lt.mp hxy)
          subst hx
          by_cases hyz : x < z
          · simp [hyz]
          · by_cases hzy : z < x
            · simp [hyz, hzy] at h2
            · have : x = z := le_antisymm (not_lt.mp hzy) (not_lt.mp hyz)
              subst this
              simp only [lt_irrefl, if_false] at h1 h2 ⊢
              exact ih ys zs (by simpa using hab) (by simpa using hbc) h1 h2

theorem colLexLess_antisymm : ∀ (a b : List Char), a.length = b.length →
    colLexLess a b = false → colLexLess b a = false → a = b := by
  intro a
  induction a with
  | nil => intro b hl _ _; cases b <;> simp_all
  | cons x xs ih =>
    intro b hl h1 h2
    match b with
    | y :: ys =>
      simp only [colLexLess] at h1 h2
      by_cases hxy : x < y
      · simp [hxy] at h1
      · by_cases hyx : y < x
        · simp [hyx, hxy] at h2
        · have hx : x = y := le_antisymm (not_lt.mp hyx) (not_lt.mp hxy)
          subst hx
          simp only [lt_irrefl, if_false] at h1 h2
          have := ih ys (by simpa using hl) h1 h2
          rw [this]

theorem lessCol_irrefl (ca : CellAddress) : ca.LessCol ca = false := by
  simp [CellAddress.LessCol, colLexLess_self]

theorem lessCol_len_le {a b : CellAddress} (h : a.LessCol b = true) :
    a.col.length ≤ b.col.length := by
  unfold CellAddress.LessCol at h
  by_cases h1 : a.col.length < b.col.length
  · omega
  · by_cases h2 : a.col.length > b.col.length
    · simp [h1, h2] at h
    · omega

theorem lessCol_trans (a b c : CellAddress) (h1 : a.LessCol b = true)
    (h2 : b.LessCol c = true) : a.LessCol c = true := by
  have hab := lessCol_len_le h1
  have hbc := lessCol_len_le h2
  unfold CellAddress.LessCol at h1 h2 ⊢
  by_cases hac : a.col.length < c.col.length
  · simp [hac]
  · have e1 : a.col.length = b.col.length := by omega
    have e2 : b.col.length = c.col.length := by omega
    rw [if_neg (by omega), if_neg (by omega)] at h1 h2 ⊢
    exact colLexLess_trans _ _ _ e1 e2 h1 h2

theorem lessCol_shorter (a b : CellAddress) (h : a.col.length < b.col.length) :
    a.LessCol b = true := by
  simp [CellAddress.LessCol, h]

theorem string_data_inj {a b : String} (h : a.data = b.data) : a = b := by
  cases a; cases b; exact congrArg String.mk h

theorem lessCol_incomp_iff (a b : CellAddress) :
    (a.LessCol b = false ∧ b.LessCol a = false) ↔ a.col = b.col := by
  constructor
  · rintro ⟨h1, h2⟩
    unfold CellAddress.LessCol at h1 h2
    rcases Nat.lt_trichotomy a.col.length b.col.length with h | h | h
    · simp [h] at h1
    · rw [if_neg (by omega), if_neg (by omega)] at h1
      rw [if_neg (by omega), if_neg (by omega)] at h2
      have := colLexLess_antisymm _ _ h h1 h2
      exact string_data_inj this
    · simp [h] at h2
  · intro h
    have hlen : a.col.length = b.col.length := by rw [h]
    unfold CellAddress.LessCol
    rw [if_neg (by omega), if_neg (by omega), if_neg (by omega), if_neg (by omega), h]
    rw [colLexLess_self]
    exact ⟨rfl, rfl⟩

theorem adjAll_tail {p : CellAddress → CellAddress → Bool} {a : CellAddress}
    {l : List CellAddress} (h : adjAll p (a :: l) = true) : adjAll p l = true := by
  cases l with
  | nil => rfl
  | cons b rest => simp only [adjAll, Bool.and_eq_true] at h; exact h.2

theorem adjAll_from_head {p : CellAddress → CellAddress → Bool}
    (ptrans : ∀ a b c, p a b = true → p b c = true → p a c = true) :
    ∀ (l : List CellAddress), adjAll p l = true →
      ∀ (j : Nat) (hj : j < l.length) (_h0 : 0 < j) (hz : 0 < l.length),
        p (l.get ⟨0, hz⟩) (l.get ⟨j, hj⟩) = true := by
  intro l
  induction l with
  | nil => intro _ j hj _ _; exact absurd hj (by simp)
  | cons a rest ih =>
    intro h j hj h0 _
    match rest, j with
    | [], j + 1 => exact absurd hj (by simp)
    | b :: rs, 1 =>
      simp only [adjAll, Bool.and_eq_true] at h
      exact h.1
    | b :: rs, j + 2 =>
      simp only [adjAll, Bool.and_eq_true] at h
      have hb := ih h.2 (j + 1) (by simpa using hj) (by omega) (by simp)
      exact ptrans _ _ _ h.1 hb

theorem adjAll_rel {p : CellAddress → CellAddress → Bool}
    (ptrans : ∀ a b c, p a b = true → p b c = true → p a c = true) :
    ∀ (l : List CellAddress), adjAll p l = true →
      ∀ (i j : Nat) (hi : i < l.length) (hj : j < l.length), i < j →
        p (l.get ⟨i, hi⟩) (l.get ⟨j, hj⟩) = true := by
  intro l
  induction l with
  | nil => intro _ i j hi _ _; exact absurd hi (by simp)
  | cons a rest ih =>
    intro h i j hi hj hij
    match i, j with
    | 0, j + 1 => exact adjAll_from_head ptrans _ h (j + 1) hj (by omega) (by simp)
    | i + 1, j + 1 =>
      exact ih (adjAll_tail h) i j (by simpa using hi) (by simpa using hj) (by omega)

set_option maxRecDepth 100000

theorem colChain_adj : adjAll (fun a b => a.LessCol b) colChain = true := by decide

/-- C9: `NextCol` on column `"Z"` yields `"AA"`; on `"ZZ"` it fails; iterating
`NextCol` from `"A"` visits all 26 single-letter columns (in order `A`..`Z`)
before any two-letter column; the enumeration order agrees with `LessCol`; and
`LessCol` is a strict weak order in which shorter columns precede longer ones
and equal-length columns compare letter by letter (incomparable columns are
exactly equal columns). -/
theorem C9_column_order :
    (∀ r, CellAddress.NextCol ⟨"Z", r⟩ = .ok ⟨"AA", r⟩) ∧
    (∀ r, CellAddress.NextCol ⟨"ZZ", r⟩ = .error "No more columns.") ∧
    ((colChain.map CellAddress.col).take 26 =
      ["A", "B", "C", "D", "E", "F", "G", "H", "I", "J", "K", "L", "M",
       "N", "O", "P", "Q", "R", "S", "T", "U", "V", "W", "X", "Y", "Z"]) ∧
    ((colChain.drop 26).all (fun a => a.col.length = 2) = true) ∧
    (∀ (i j : Nat) (hi : i < colChain.length) (hj : j < colChain.length), i < j →
      (colChain.get ⟨i, hi⟩).LessCol (colChain.get ⟨j, hj⟩) = true) ∧
    (∀ a : CellAddress, a.LessCol a = false) ∧
    (∀ a b c : CellAddress, a.LessCol b = true → b.LessCol c = true →
      a.LessCol c = true) ∧
    (∀ a b : CellAddress, a.col.length < b.col.length → a.LessCol b = true) ∧
    (∀ a b : CellAddress, (a.LessCol b = false ∧ b.LessCol a = false) ↔
      a.col = b.col) := by
  refine ⟨fun r => rfl, fun r => rfl, by decide, by decide, ?_,
    lessCol_irrefl, lessCol_trans, lessCol_shorter, lessCol_incomp_iff⟩
  exact adjAll_rel lessCol_trans colChain colChain_adj

theorem C9_column_order_witness :
    (colChain.get ⟨0, by decide⟩).LessCol (colChain.get ⟨30, by decide⟩) = true ∧
    CellAddress.LessCol ⟨"B", 1⟩ ⟨"AZ", 1⟩ = true ∧
    ((CellAddress.LessCol ⟨"C", 1⟩ ⟨"C", 7⟩ = false ∧
      CellAddress.LessCol ⟨"C", 7⟩ ⟨"C", 1⟩ = false) ↔ ("C" : String) = "C") :=
  ⟨C9_column_order.2.2.2.2.1 0 30 (by decide) (by decide) (by decide),
   C9_column_order.2.2.2.2.2.2.2.1 ⟨"B", 1⟩ ⟨"AZ", 1⟩ (by decide),
   C9_column_order.2.2.2.2.2.2.2.2 ⟨"C", 1⟩ ⟨"C", 7⟩⟩

/-! ## Whitespace and the ignored `"="` check -/

theorem parseBody_space (s : List Char) :
    parseBody (' ' :: s) = .error ("Unexpected rune " ++ String.mk [' ']) := by
  unfold parseBody
  rw [show topFuel (' ' :: s).length = (8 * s.length + 23) + 1 from by
    simp [topFuel]; omega]
  simp only [parseEXP]
  rw [show (8 * s.length + 23 : Nat) = (8 * s.length + 22) + 1 from by omega]
  simp only [parseMDSEXP]
  rw [show (8 * s.length + 22 : Nat) = (8 * s.length + 21) + 1 from by omega]
  simp only [parseSUBEXP]
  simp +decide [nextTok, zeroTok]

/-- C4 counterexample: `"=A1 +B1"` and `"=A1 B1"` both contain a whitespace
character, yet `ParseExpression` succeeds on them (the space is consumed at an
operator position and the lexing error is discarded; in the second case the
result is a silently truncated prefix). -/
theorem C4_counterexample :
    ParseExpression "=A1 +B1" =
      .ok (.mk .ADD (some (.mk .ID none none "A1"))
        (some (.mk .ID none none "B1")) "") ∧
    ParseExpression "=A1 B1" = .ok (.mk .ID none none "A1") :=
  ⟨rfl, rfl⟩

/-- C4 (amended): whitespace is never skipped as token separation and always
fails to lex, but only a whitespace character at a position where an operand is
required makes `ParseExpression` fail: every formula whose expression part
starts with a space is rejected, while at positions where a binary operator is
expected the offending rune is consumed and its error discarded, so a formula
containing whitespace can still parse successfully (possibly as a silently
truncated prefix). -/
theorem C4_whitespace :
    (∀ s : List Char, ParseExpression (String.mk ('=' :: ' ' :: s)) =
      .error ("Unexpected rune " ++ String.mk [' '])) ∧
    ParseExpression "=A1 +B1" =
      .ok (.mk .ADD (some (.mk .ID none none "A1"))
        (some (.mk .ID none none "B1")) "") ∧
    ParseExpression "=A1 B1" = .ok (.mk .ID none none "A1") := by
  refine ⟨fun s => ?_, rfl, rfl⟩
  unfold ParseExpression
  have h2 : (expectStr (String.mk ('=' :: ' ' :: s)).data "=").2 = ' ' :: s := by
    simp [expectStr, show "=".length = 1 from rfl]
  rw [h2]
  exact parseBody_space s

/-- C10: `ParseExpression` discards the first byte of its input without
enforcing that it is `"="` (the result of `expectStr` is ignored): for every
non-empty input whose remainder after the first byte parses as an expression,
`ParseExpression` succeeds with that expression's tree, whatever the first
byte is. -/
theorem C10_equals_check_ignored (c : Char) (rest : List Char) (e : Expression)
    (h : parseBody rest = .ok e) :
    ParseExpression (String.mk (c :: rest)) = .ok e := by
  unfold ParseExpression
  have h2 : (expectStr (String.mk (c :: rest)).data "=").2 = rest := by
    simp [expectStr, show "=".length = 1 from rfl]
  rw [h2]
  exact h

theorem C10_equals_check_ignored_witness :
    ParseExpression (String.mk ('x' :: "A1+B1".data)) =
      .ok (.mk .ADD (some (.mk .ID none none "A1"))
        (some (.mk .ID none none "B1")) "") :=
  C10_equals_check_ignored 'x' "A1+B1".data _ rfl

/-! ## Characterisation of `CellAddr` (claim C5) -/

theorem digit_not_alpha {c : Char} (h : c.isDigit = true) : c.isAlpha = false := by
  simp only [Char.isDigit, Char.isAlpha, Char.isUpper, Char.isLower, Char.le_def,
    decide_eq_true_eq, Bool.and_eq_true, UInt32.le_def, BitVec.le_def] at h ⊢
  rw [Bool.or_eq_false_iff]
  constructor <;> rw [Bool.and_eq_false_iff] <;> left <;>
    rw [decide_eq_false_iff_not] <;>
    simp only [show (UInt32.toBitVec 48).toNat = 48 from rfl,
      show (UInt32.toBitVec 57).toNat = 57 from rfl,
      show (UInt32.toBitVec 65).toNat = 65 from rfl,
      show (UInt32.toBitVec 97).toNat = 97 from rfl] at h ⊢ <;> omega

theorem takeWhile_app_all {p : Char → Bool} :
    ∀ (l x : List Char), (∀ c ∈ l, p c = true) →
      (l ++ x).takeWhile p = l ++ x.takeWhile p := by
  intro l
  induction l with
  | nil => simp
  | cons a t ih =>
    intro x h
    have ha : p a = true := h a (by simp)
    simp [List.takeWhile_cons, ha, ih x (fun c hc => h c (by simp [hc]))]

theorem dropWhile_app_all {p : Char → Bool} :
    ∀ (l x : List Char), (∀ c ∈ l, p c = true) →
      (l ++ x).dropWhile p = x.dropWhile p := by
  intro l
  induction l with
  | nil => simp
  | cons a t ih =>
    intro x h
    have ha : p a = true := h a (by simp)
    simp only [List.cons_append, List.dropWhile_cons, ha, if_true]
    exact ih x (fun c hc => h c (by simp [hc]))

theorem dropWhile_self_head {p : Char → Bool} (x : List Char)
    (h : ∀ c, x.head? = some c → p c = false) : x.dropWhile p = x := by
  cases x with
  | nil => rfl
  | cons a t => simp [List.dropWhile_cons, h a rfl]

theorem takeWhile_nil_head {p : Char → Bool} (x : List Char)
    (h : ∀ c, x.head? = some c → p c = false) : x.takeWhile p = [] := by
  cases x with
  | nil => rfl
  | cons a t => simp [List.takeWhile_cons, h a rfl]

theorem dropWhile_app_ne_nil {p : Char → Bool} :
    ∀ (l x : List Char), l.dropWhile p ≠ [] →
      (l ++ x).dropWhile p = l.dropWhile p ++ x := by
  intro l
  induction l with
  | nil => intro x h; simp at h
  | cons a t ih =>
    intro x h
    by_cases hp : p a
    · simp only [List.dropWhile_cons, hp, if_true] at h ⊢
      simp only [List.cons_append, List.dropWhile_cons, hp, if_true]
      exact ih x h
    · simp only [List.cons_append, List.dropWhile_cons, hp, if_false]
      simp [hp]

theorem head?_dropWhile_false {p : Char → Bool} :
    ∀ (l : List Char) (c : Char), (l.dropWhile p).head? = some c → p c = false := by
  intro l
  induction l with
  | nil => intro c h; simp at h
  | cons a t ih =>
    intro c h
    by_cases hp : p a
    · rw [List.dropWhile_cons, if_pos hp] at h
      exact ih c h
    · rw [List.dropWhile_cons, if_neg hp] at h
      simp only [List.head?_cons, Option.some_inj] at h
      rw [← h]
      exact Bool.eq_false_iff.mpr hp

/-- No ASCII letter immediately followed by a digit occurs in the list (so no
match of `([A-Za-z]+)([0-9]+)` can start inside it). -/
def noLetterDigitPair : List Char → Prop
  | [] => True
  | [_] => True
  | a :: b :: rest => ¬(a.isAlpha = true ∧ b.isDigit = true) ∧ noLetterDigitPair (b :: rest)

theorem noPair_tail {a : Char} {t : List Char} (h : noLetterDigitPair (a :: t)) :
    noLetterDigitPair t := by
  cases t with
  | nil => trivial
  | cons b r => exact h.2

theorem noPair_cons_of {a : Char} {t : List Char} (h : noLetterDigitPair t)
    (h2 : ∀ b, t.head? = some b → ¬(a.isAlpha = true ∧ b.isDigit = true)) :
    noLetterDigitPair (a :: t) := by
  cases t with
  | nil => trivial
  | cons b r => exact ⟨h2 b rfl, h⟩

/-- If a list starts with a letter and contains no letter–digit pair, the first
non-letter character in it (if any) is not a digit. -/
theorem noPair_dropWhile_head :
    ∀ (pre : List Char) (c0 : Char), pre.head? = some c0 → c0.isAlpha = true →
      noLetterDigitPair pre →
      ∀ x, (pre.dropWhile Char.isAlpha).head? = some x → x.isDigit = false := by
  intro pre
  induction pre with
  | nil => intro c0 h; simp at h
  | cons a t ih =>
    intro c0 h0 ha hnp x hx
    simp only [List.head?_cons, Option.some_inj] at h0
    subst h0
    rw [List.dropWhile_cons, if_pos ha] at hx
    cases t with
    | nil => simp at hx
    | cons b r =>
      by_cases hb : b.isAlpha = true
      · exact ih b rfl hb (noPair_tail hnp) x hx
      · rw [dropWhile_self_head (b :: r)
          (fun c hc => by simp at hc; rw [← hc]; exact Bool.eq_false_iff.mpr hb)] at hx
        simp only [List.head?_cons, Option.some_inj] at hx
        subst hx
        by_contra hd
        exact hnp.1 ⟨ha, Bool.not_eq_false _ ▸ hd⟩

/-- Declarative description of the (unanchored, leftmost) match of the address
pattern `([A-Za-z]+)([0-9]+)` in `s`: the input splits as
`pre ++ l ++ d ++ rest` with `l` a nonempty letter run and `d` a nonempty digit
run, the match is maximal on both sides (`pre` does not end with a letter and
`rest` does not start with a digit), and no match starts earlier (`pre`
contains no letter immediately followed by a digit). -/
def AddrMatchSpec (s l d : List Char) : Prop :=
  ∃ pre rest,
    s = pre ++ l ++ d ++ rest ∧
    l ≠ [] ∧ (∀ c ∈ l, c.isAlpha = true) ∧
    d ≠ [] ∧ (∀ c ∈ d, c.isDigit = true) ∧
    (∀ c, pre.getLast? = some c → c.isAlpha = false) ∧
    (∀ c, rest.head? = some c → c.isDigit = false) ∧
    noLetterDigitPair pre

/-- If the run of letters starting at a letter head `c` is not immediately
followed by a digit, a match in `c :: rest` is the same thing as a match in
`rest`. -/
theorem addr_shift_alpha (c : Char) (rest : List Char) (hc : c.isAlpha = true)
    (hnm : ∀ x, (rest.dropWhile Char.isAlpha).head? = some x → x.isDigit = false)
    (l d : List Char) : AddrMatchSpec rest l d ↔ AddrMatchSpec (c :: rest) l d := by
  constructor
  · rintro ⟨pre, r2, hs, hl, hla, hd, hda, hlast, hhead, hnp⟩
    cases pre with
    | nil =>
      exfalso
      simp only [List.nil_append] at hs
      cases d with
      | nil => exact absurd rfl hd
      | cons d1 dt =>
        have hda1 : d1.isDigit = true := hda d1 (by simp)
        have : rest.dropWhile Char.isAlpha = (d1 :: dt) ++ r2 := by
          rw [hs, List.append_assoc, dropWhile_app_all l _ hla]
          exact dropWhile_self_head _ (fun x hx => by
            simp only [List.cons_append, List.head?_cons, Option.some_inj] at hx
            rw [← hx]; exact digit_not_alpha hda1)
        have := hnm d1 (by rw [this]; simp)
        rw [hda1] at this
        exact Bool.true_eq_false ▸ this
    | cons p ps =>
      have hpd : p.isDigit = false := by
        by_cases hpd : p.isDigit = true
        · exfalso
          have hpa : p.isAlpha = false := digit_not_alpha hpd
          have hr : rest.head? = some p := by
            rw [hs]; simp
          have : rest.dropWhile Char.isAlpha = rest := by
            apply dropWhile_self_head
            intro x hx
            rw [hr, Option.some_inj] at hx
            rw [← hx]; exact hpa
          have := hnm p (by rw [this, hr])
          rw [hpd] at this
          exact Bool.true_eq_false ▸ this
        · exact Bool.not_eq_true _ ▸ hpd
      refine ⟨c :: p :: ps, r2, by simp [hs], hl, hla, hd, hda, ?_, hhead, ?_⟩
      · intro x hx
        rw [List.getLast?_cons_cons] at hx
        exact hlast x hx
      · exact ⟨fun hcp => by rw [hpd] at hcp; exact Bool.false_eq_true ▸ hcp.2, hnp⟩
  · rintro ⟨pre, r2, hs, hl, hla, hd, hda, hlast, hhead, hnp⟩
    cases pre with
    | nil =>
      exfalso
      simp only [List.nil_append] at hs
      cases l with
      | nil => exact absurd rfl hl
      | cons x xs =>
        simp only [List.cons_append, List.append_assoc, List.cons.injEq] at hs
        obtain ⟨-, hs2⟩ := hs
        cases d with
        | nil => exact absurd rfl hd
        | cons d1 dt =>
          have hda1 : d1.isDigit = true := hda d1 (by simp)
          have : rest.dropWhile Char.isAlpha = (d1 :: dt) ++ r2 := by
            rw [hs2, dropWhile_app_all xs _ (fun y hy => hla y (by simp [hy]))]
            exact dropWhile_self_head _ (fun y hy => by
              simp only [List.cons_append, List.head?_cons, Option.some_inj] at hy
              rw [← hy]; exact digit_not_alpha hda1)
          have := hnm d1 (by rw [this]; simp)
          rw [hda1] at this
          exact Bool.true_eq_false ▸ this
    | cons p ps =>
      have hpc : p = c := by
        have := congrArg List.head? hs
        simp at this
        exact this.symm
      subst hpc
      cases ps with
      | nil =>
        exfalso
        have := hlast p (by simp)
        rw [hc] at this
        exact Bool.true_eq_false ▸ this
      | cons q qs =>
        have hs2 : rest = (q :: qs) ++ l ++ d ++ r2 := by
          have := congrArg List.tail hs
          simpa using this
        refine ⟨q :: qs, r2, hs2, hl, hla, hd, hda, ?_, hhead, noPair_tail hnp⟩
        intro x hx
        exact hlast x (by rw [List.getLast?_cons_cons]; exact hx)

theorem findAddrMatch_iff : ∀ (s l d : List Char),
    findAddrMatch s = some (l, d) ↔ AddrMatchSpec s l d := by
  intro s
  induction s with
  | nil =>
    intro l d
    constructor
    · intro h; simp [findAddrMatch] at h
    · rintro ⟨pre, rest, hs, hl, -, -, -, -, -, -⟩
      cases pre <;> cases l <;> simp at hs hl
  | cons c rest ih =>
    intro l d
    by_cases hc : c.isAlpha = true
    case neg =>
      have hcf : c.isAlpha = false := Bool.not_eq_true _ ▸ hc
      rw [show findAddrMatch (c :: rest) = findAddrMatch rest from by
        rw [findAddrMatch]; simp [hcf]]
      rw [ih l d]
      constructor
      · rintro ⟨pre, r2, hs, hl, hla, hd, hda, hlast, hhead, hnp⟩
        refine ⟨c :: pre, r2, by simp [hs], hl, hla, hd, hda, ?_, hhead, ?_⟩
        · intro x hx
          cases pre with
          | nil =>
            simp only [List.getLast?_singleton, Option.some_inj] at hx
            rw [← hx]; exact hcf
          | cons p ps =>
            rw [List.getLast?_cons_cons] at hx
            exact hlast x hx
        · exact noPair_cons_of hnp (fun b _ hb => hc hb.1)
      · rintro ⟨pre, r2, hs, hl, hla, hd, hda, hlast, hhead, hnp⟩
        cases pre with
        | nil =>
          cases l with
          | nil => exact absurd rfl hl
          | cons x xs =>
            simp only [List.nil_append, List.cons_append, List.cons.injEq] at hs
            exact absurd (hs.1 ▸ hla x (by simp)) hc
        | cons p ps =>
          simp only [List.cons_append, List.cons.injEq] at hs
          refine ⟨ps, r2, hs.2, hl, hla, hd, hda, ?_, hhead, noPair_tail hnp⟩
          intro x hx
          cases ps with
          | nil => simp at hx
          | cons q qs =>
            exact hlast x (by rw [List.getLast?_cons_cons]; exact hx)
    case pos =>
      cases hafter : rest.dropWhile Char.isAlpha with
      | nil =>
        -- the maximal letter run reaches the end of the input: no match here
        rw [show findAddrMatch (c :: rest) = findAddrMatch rest from by
          rw [findAddrMatch]; simp [hc, hafter]]
        rw [ih l d]
        have hnm : ∀ x, (rest.dropWhile Char.isAlpha).head? = some x → x.isDigit = false := by
          intro x hx; rw [hafter] at hx; simp at hx
        exact addr_shift_alpha c rest hc hnm l d
      | cons d0 ds =>
        by_cases hd0 : d0.isDigit = true
        case neg =>
          rw [show findAddrMatch (c :: rest) = findAddrMatch rest from by
            rw [findAddrMatch]; simp [hc, hafter, hd0]]
          rw [ih l d]
          have hnm : ∀ x, (rest.dropWhile Char.isAlpha).head? = some x →
              x.isDigit = false := by
            intro x hx
            rw [hafter] at hx
            simp only [List.head?_cons, Option.some_inj] at hx
            rw [← hx]; exact Bool.not_eq_true _ ▸ hd0
          exact addr_shift_alpha c rest hc hnm l d
        case pos =>
          rw [show findAddrMatch (c :: rest) =
              some (c :: rest.takeWhile Char.isAlpha,
                (rest.dropWhile Char.isAlpha).takeWhile Char.isDigit) from by
            rw [findAddrMatch]; simp [hc, hafter, hd0]]
          have hLalpha : ∀ y ∈ c :: rest.takeWhile Char.isAlpha, y.isAlpha = true := by
            intro y hy
            rcases List.mem_cons.mp hy with hy | hy
            · rw [hy]; exact hc
            · exact List.mem_takeWhile_imp hy
          have specLD : AddrMatchSpec (c :: rest)
              (c :: rest.takeWhile Char.isAlpha)
              ((rest.dropWhile Char.isAlpha).takeWhile Char.isDigit) := by
            refine ⟨[], (rest.dropWhile Char.isAlpha).dropWhile Char.isDigit,
              ?_, by simp, hLalpha, ?_, ?_, by simp, ?_, trivial⟩
            · simp only [List.nil_append, List.cons_append, List.append_assoc,
                List.takeWhile_append_dropWhile]
            · rw [hafter, List.takeWhile_cons, if_pos hd0]; simp
            · intro y hy; exact List.mem_takeWhile_imp hy
            · intro y hy; exact head?_dropWhile_false _ y hy
          constructor
          · intro h
            rw [Option.some_inj, Prod.mk.injEq] at h
            obtain ⟨h1, h2⟩ := h
            rw [← h1, ← h2]
            exact specLD
          · rintro ⟨pre, r2, hs, hl, hla, hd, hda, hlast, hhead, hnp⟩
            cases pre with
            | cons p ps =>
              exfalso
              have hpc : p = c := by
                have := congrArg List.head? hs
                simp at this
                exact this.symm
              subst hpc
              by_cases hdp : (p :: ps).dropWhile Char.isAlpha = []
              · have hall := List.dropWhile_eq_nil_iff.mp hdp
                have hne : (p :: ps) ≠ [] := by simp
                have h1 := hlast ((p :: ps).getLast hne)
                  (List.getLast?_eq_getLast _ hne)
                have h2 := hall _ (List.getLast_mem hne)
                simp only [h1] at h2
                exact Bool.false_eq_true ▸ h2
              · have heq : rest.dropWhile Char.isAlpha =
                    ((p :: ps).dropWhile Char.isAlpha) ++ (l ++ (d ++ r2)) := by
                  have hs2 : rest = ps ++ (l ++ (d ++ r2)) := by
                    have := congrArg List.tail hs
                    simpa [List.append_assoc] using this
                  calc rest.dropWhile Char.isAlpha
                      = ((p :: rest).dropWhile Char.isAlpha) := by
                        rw [List.dropWhile_cons, if_pos hc]
                    _ = (((p :: ps) ++ (l ++ (d ++ r2))).dropWhile Char.isAlpha) := by
                        rw [show p :: rest = (p :: ps) ++ (l ++ (d ++ r2)) from by
                          rw [hs2]; rfl]
                    _ = ((p :: ps).dropWhile Char.isAlpha) ++ (l ++ (d ++ r2)) :=
                        dropWhile_app_ne_nil _ _ hdp
                have hdig := noPair_dropWhile_head (p :: ps) p rfl hc hnp
                obtain ⟨z, zs, hz⟩ : ∃ z zs, (p :: ps).dropWhile Char.isAlpha = z :: zs := by
                  cases hzz : (p :: ps).dropWhile Char.isAlpha with
                  | nil => exact absurd hzz hdp
                  | cons z zs => exact ⟨z, zs, rfl⟩
                have hzd := hdig z (by rw [hz]; rfl)
                have : d0 = z := by
                  rw [hafter, hz] at heq
                  simpa using congrArg List.head? heq
                rw [this, hzd] at hd0
                exact Bool.false_eq_true ▸ hd0
            | nil =>
              simp only [List.nil_append] at hs
              cases l with
              | nil => exact absurd rfl hl
              | cons x xs =>
                have hxc : x = c := by
                  have := congrArg List.head? hs
                  simp [List.append_assoc] at this
                  exact this.symm
                subst hxc
                have hs2 : rest = xs ++ (d ++ r2) := by
                  have := congrArg List.tail hs
                  simpa [List.append_assoc] using this
                have hxsalpha : ∀ y ∈ xs, y.isAlpha = true :=
                  fun y hy => hla y (by simp [hy])
                cases d with
                | nil => exact absurd rfl hd
                | cons d1 dt =>
                  have hd1 : d1.isDigit = true := hda d1 (by simp)
                  have hnal : ∀ y, ((d1 :: dt) ++ r2).head? = some y →
                      y.isAlpha = false := by
                    intro y hy
                    simp only [List.cons_append, List.head?_cons,
                      Option.some_inj] at hy
                    rw [← hy]; exact digit_not_alpha hd1
                  have htake : rest.takeWhile Char.isAlpha = xs := by
                    rw [hs2, takeWhile_app_all xs _ hxsalpha,
                      takeWhile_nil_head _ hnal, List.append_nil]
                  have hdrop : rest.dropWhile Char.isAlpha = (d1 :: dt) ++ r2 := by
                    rw [hs2, dropWhile_app_all xs _ hxsalpha]
                    exact dropWhile_self_head _ hnal
                  have hD : (rest.dropWhile Char.isAlpha).takeWhile Char.isDigit =
                      d1 :: dt := by
                    rw [hdrop, takeWhile_app_all _ _ hda,
                      takeWhile_nil_head r2 hhead, List.append_nil]
                  rw [htake, hD]

/-- C5 counterexample: `CellAddr` accepts `"A0"` (a row of `0`, which the claim
says must be rejected with an `InvalidAddress` error) as well as `"A1!"`,
`" A1"` and `"A1B2"` (extra characters after, before, and between column and
row, which the claim says must be rejected), returning addresses instead of
errors. -/
theorem C5_counterexample :
    CellAddr "A0" = .ok ⟨"A", 0⟩ ∧ CellAddr "A1!" = .ok ⟨"A", 1⟩ ∧
    CellAddr " A1" = .ok ⟨"A", 1⟩ ∧ CellAddr "A1B2" = .ok ⟨"A", 1⟩ :=
  ⟨rfl, rfl, rfl, rfl⟩

theorem CellAddr_eq_match (s : String) {l d : List Char}
    (hm : findAddrMatch s.data = some (l, d)) :
    CellAddr s =
      (if (String.mk (l.map Char.toUpper)).length > maxColDigits then
        .error ("Invalid cell address '" ++ s ++ "': Column address too big")
      else if digitsToNat d < 2 ^ 32 then
        .ok ⟨String.mk (l.map Char.toUpper), digitsToNat d⟩
      else .error ("Invalid cell address '" ++ s ++ "': value out of range")) := by
  unfold CellAddr
  rw [hm]

/-- C5 (amended): `CellAddr s` returns an address exactly when `s` contains a
maximal run of ASCII letters immediately followed by a digit run; for the
leftmost such match, the letter run (normalized to uppercase) must have at most
two letters and the digit run must have a value that fits in an unsigned 32-bit
integer.  The column is the uppercased letter run and the row is the digit
run's value, which may be `0`; characters before and after the match are
ignored rather than causing an error. -/
theorem C5_celladdr_characterisation (s : String) (col : String) (row : Nat) :
    CellAddr s = .ok ⟨col, row⟩ ↔
      ∃ l d, AddrMatchSpec s.data l d ∧ l.length ≤ maxColDigits ∧
        col = String.mk (l.map Char.toUpper) ∧ row = digitsToNat d ∧
        row < 2 ^ 32 := by
  cases hm : findAddrMatch s.data with
  | none =>
    constructor
    · intro h
      rw [show CellAddr s = .error ("Invalid cell address '" ++ s ++ "'") from by
        unfold CellAddr; rw [hm]] at h
      cases h
    · rintro ⟨l, d, hspec, -, -, -, -⟩
      rw [← findAddrMatch_iff, hm] at hspec
      cases hspec
  | some ld =>
    obtain ⟨l, d⟩ := ld
    have hlenstr : (String.mk (l.map Char.toUpper)).length = l.length := by
      simp [String.length]
    rw [CellAddr_eq_match s hm]
    constructor
    · intro h
      by_cases hlen : (String.mk (l.map Char.toUpper)).length > maxColDigits
      · rw [if_pos hlen] at h; cases h
      · rw [if_neg hlen] at h
        by_cases hrow : digitsToNat d < 2 ^ 32
        · rw [if_pos hrow] at h
          rw [Except.ok.injEq, CellAddress.mk.injEq] at h
          exact ⟨l, d, (findAddrMatch_iff _ _ _).mp hm, by omega,
            h.1.symm, h.2.symm, h.2 ▸ hrow⟩
        · rw [if_neg hrow] at h; cases h
    · rintro ⟨l2, d2, hspec, hlen, hcol, hrow, hbound⟩
      rw [← findAddrMatch_iff, hm, Option.some_inj, Prod.mk.injEq] at hspec
      obtain ⟨he1, he2⟩ := hspec
      subst he1
      subst he2
      rw [if_neg (by omega), if_pos (by omega), hcol, hrow]

theorem C5_celladdr_characterisation_witness :
    CellAddr "A1!" = .ok ⟨"A", 1⟩ ↔
      ∃ l d, AddrMatchSpec "A1!".data l d ∧ l.length ≤ maxColDigits ∧
        ("A" : String) = String.mk (l.map Char.toUpper) ∧ (1 : Nat) = digitsToNat d ∧
        (1 : Nat) < 2 ^ 32 :=
  C5_celladdr_characterisation "A1!" "A" 1

/-! ## The sheet and cell model (cell.go, sheet.go) -/

/-- The four cell kinds `cell_transient`, `cell_val`, `cell_string`,
`cell_expr` from cell.go. -/
inductive CellType
  | transient | val | str | expr
deriving DecidableEq

/-- `Cell` from cell.go.  The Go `sheet *Sheet` back-pointer is replaced by
explicit state passing; `upstream`/`downstream` hold cell addresses instead of
pointers (cells live in the sheet, keyed by address); `float64` values are
modelled as exact rationals; `expErr error` becomes `Option String`. -/
structure Cell where
  cell_type : CellType
  addr : CellAddress
  content : String
  val : ℚ
  expstr : String
  exp : Option Expression
  expErr : Option String
  upstream : List CellAddress
  downstream : List CellAddress
  recalculating : Bool
  errCycle : Bool

/-- `NewCell` from cell.go: every other field is the Go zero value. -/
def NewCell (a : CellAddress) : Cell :=
  ⟨.transient, a, "", 0, "", none, none, [], [], false, false⟩

/-- The sheet's two-level `map[string]map[uint32]*Cell` collapsed into one
association list keyed by full address (the two representations are in
bijection).  The optional `OnCellUpdated` callback is `nil` in every scenario
the claims quantify over (it is only set by the excluded I/O layers), so it is
not modelled. -/
abbrev Sheet := List (CellAddress × Cell)

/-- `cellAt` from sheet.go: first (unique) binding of the address, if any. -/
def cellAt : Sheet → CellAddress → Option Cell
  | [], _ => none
  | (k, c) :: t, a => if k = a then some c else cellAt t a

/-- Update the cell stored at `a` in place (no-op when absent). -/
def mapCell (s : Sheet) (a : CellAddress) (f : Cell → Cell) : Sheet :=
  s.map (fun kc => if kc.1 = a then (kc.1, f kc.2) else kc)

/-- Remove the binding of `a` (Go `delete(s.mtx[col], row)`). -/
def eraseCell (s : Sheet) (a : CellAddress) : Sheet :=
  s.filter (fun kc => decide (kc.1 ≠ a))

/-- `cellOrNewAt` from sheet.go, as a state transformer: materialize a fresh
zero cell at `a` when none exists. -/
def cellOrNewAt (s : Sheet) (a : CellAddress) : Sheet :=
  match cellAt s a with
  | some _ => s
  | none => s ++ [(a, NewCell a)]

/-- Go's `%f` formatting of a value, on the exact rational model: sign,
integer part, and six (rounded) decimal places. -/
def fmtFloat (q : ℚ) : String :=
  let n : Nat := (q.num.natAbs * 1000000 * 2 + q.den) / (2 * q.den)
  let frac := Nat.repr (n % 1000000)
  (if q < 0 then "-" else "") ++ Nat.repr (n / 1000000) ++ "." ++
    String.mk (List.replicate (6 - frac.length) '0') ++ frac

/-- Exponent suffix of Go's `strconv.ParseFloat` syntax. -/
def parseExpPart (mant : ℚ) (rest : List Char) : Option ℚ :=
  match rest with
  | [] => some mant
  | e :: t =>
    if e = 'e' ∨ e = 'E' then
      let (es, t1) : Int × List Char :=
        match t with
        | '+' :: t1 => (1, t1)
        | '-' :: t1 => (-1, t1)
        | t1 => (1, t1)
      if t1 ≠ [] ∧ t1.all Char.isDigit then
        some (mant * (10 : ℚ) ^ (es * (digitsToNat t1 : Int)))
      else none
    else none

/-- Model of `strconv.ParseFloat(s, 64)` on the decimal forms: optional sign,
digits with at most one decimal point (at least one digit), optional exponent.
(The exotic Go forms — hex floats, `Inf`, `NaN`, digit underscores — are not
modelled; no claim scenario uses them.)  The numeric value is kept exact. -/
def parseGoFloat (str : String) : Option ℚ :=
  let (sgn, l1) : ℚ × List Char :=
    match str.data with
    | '+' :: t => (1, t)
    | '-' :: t => (-1, t)
    | t => (1, t)
  let intPart := l1.takeWhile Char.isDigit
  let rest1 := l1.dropWhile Char.isDigit
  match rest1 with
  | '.' :: t2 =>
    let fracPart := t2.takeWhile Char.isDigit
    let rest2 := t2.dropWhile Char.isDigit
    if intPart = [] ∧ fracPart = [] then none
    else
      parseExpPart (sgn * ((digitsToNat intPart : ℚ) +
        (digitsToNat fracPart : ℚ) / (10 : ℚ) ^ fracPart.length)) rest2
  | _ =>
    if intPart = [] then none
    else parseExpPart (sgn * (digitsToNat intPart : ℚ)) rest1

/-- `EditValue` from cell.go (the `default` branch is unreachable: the model's
`CellType` has exactly the four Go constants). -/
def Cell.EditValue (c : Cell) : String :=
  match c.cell_type with
  | .transient => ""
  | .val => fmtFloat c.val
  | .str => c.content
  | .expr => c.expstr

/-- `Value` from cell.go. -/
def Cell.Value (c : Cell) : Except String ℚ :=
  match c.cell_type with
  | .transient => .ok 0
  | .str => .error ("Cannot get numeric value from " ++ c.addr.str)
  | .val => .ok c.val
  | .expr =>
    match c.expErr with
    | some e => .error (c.addr.str ++ ": " ++ e)
    | none => .ok c.val

/-- `Content` from cell.go. -/
def Cell.Content (c : Cell) : String :=
  match c.cell_type with
  | .transient => ""
  | .str => c.content
  | .val => fmtFloat c.val
  | .expr =>
    match c.expErr with
    | some e => c.addr.str ++ ": " ++ e
    | none => fmtFloat c.val

/-- `ValueAt` from sheet.go: validate the address; missing cells are worth 0. -/
def ValueAt (s : Sheet) (addr : String) : Except String ℚ :=
  match CellAddr addr with
  | .error e => .error e
  | .ok a =>
    match cellAt s a with
    | none => .ok 0
    | some c => c.Value

/-- `ContentAt` from sheet.go. -/
def ContentAt (s : Sheet) (addr : String) : Except String String :=
  match CellAddr addr with
  | .error e => .error e
  | .ok a =>
    match cellAt s a with
    | none => .ok ""
    | some c => .ok c.Content

/-- `EditAt` from sheet.go. -/
def EditAt (s : Sheet) (addr : String) : Except String String :=
  match CellAddr addr with
  | .error e => .error e
  | .ok a =>
    match cellAt s a with
    | none => .ok ""
    | some c => .ok c.EditValue

/-- Modelled from the spec: the evaluator `Eval` of the current `sheet`
package is not among the provided sources — only the older `package main`
variant (src/unnamed/part_005) is, in which the SUB, MUL and DIV arms are
stubs that abort.  Per §4.3 of the spec, reference nodes resolve through the
sheet's numeric accessor `ValueAt` and the four operator nodes recursively
evaluate both children and combine the results with the corresponding
arithmetic operation (IEEE doubles, modelled here by exact rationals); an
operator node missing a child is a structural error. -/
def Eval : Expression → Sheet → Except String ℚ
  | .mk .ID _ _ v, s => ValueAt s v
  | .mk .ADD none _ _, _ => .error "Bad Expression"
  | .mk .ADD (some le) none _, s =>
    match Eval le s with
    | .error e => .error e
    | .ok _ => .error "Bad expression"
  | .mk .ADD (some le) (some re) _, s =>
    match Eval le s with
    | .error e => .error e
    | .ok lv =>
      match Eval re s with
      | .error e => .error e
      | .ok rv => .ok (lv + rv)
  | .mk .SUB none _ _, _ => .error "Bad Expression"
  | .mk .SUB (some le) none _, s =>
    match Eval le s with
    | .error e => .error e
    | .ok _ => .error "Bad expression"
  | .mk .SUB (some le) (some re) _, s =>
    match Eval le s with
    | .error e => .error e
    | .ok lv =>
      match Eval re s with
      | .error e => .error e
      | .ok rv => .ok (lv - rv)
  | .mk .MUL none _ _, _ => .error "Bad Expression"
  | .mk .MUL (some le) none _, s =>
    match Eval le s with
    | .error e => .error e
    | .ok _ => .error "Bad expression"
  | .mk .MUL (some le) (some re) _, s =>
    match Eval le s with
    | .error e => .error e
    | .ok lv =>
      match Eval re s with
      | .error e => .error e
      | .ok rv => .ok (lv * rv)
  | .mk .DIV none _ _, _ => .error "Bad Expression"
  | .mk .DIV (some le) none _, s =>
    match Eval le s with
    | .error e => .error e
    | .ok _ => .error "Bad expression"
  | .mk .DIV (some le) (some re) _, s =>
    match Eval le s with
    | .error e => .error e
    | .ok lv =>
      match Eval re s with
      | .error e => .error e
      | .ok rv => .ok (lv / rv)
  | .mk .NONE _ _ _, _ => .error "BAD OP VAL"
  | .mk .LP _ _ _, _ => .error "BAD OP VAL"
  | .mk .RP _ _ _, _ => .error "BAD OP VAL"

/-- `deleteSelfIfNecessary` from cell.go, on the cell at `a`. -/
def deleteSelfIfNecessary (s : Sheet) (a : CellAddress) : Sheet :=
  match cellAt s a with
  | none => s
  | some c =>
    if c.cell_type = .transient ∧ c.downstream = [] then eraseCell s a else s

/-- The removal loop of `removeDownstream` (cell.go): overwrite the first
occurrence with the last element and shrink the slice by one. -/
def swapRemoveAddr (l : List CellAddress) (a : CellAddress) : List CellAddress :=
  if a ∈ l then
    match l.getLast? with
    | none => l
    | some last => (l.set (l.indexOf a) last).dropLast
  else l

/-- `removeDownstream` from cell.go: drop one occurrence of `a` from the
downstream list of the cell at `u`, then the deferred
`deleteSelfIfNecessary` on `u`. -/
def removeDownstream (s : Sheet) (u : CellAddress) (a : CellAddress) : Sheet :=
  deleteSelfIfNecessary
    (mapCell s u (fun c => { c with downstream := swapRemoveAddr c.downstream a })) u

/-- `addDownstream` from cell.go, on the cell at `u`. -/
def addDownstream (s : Sheet) (u : CellAddress) (a : CellAddress) : Sheet :=
  mapCell s u (fun c => { c with downstream := c.downstream ++ [a] })

/-- The error message of a detected cycle (cell.go `Recalculate`). -/
def cycErrMsg : String := "Cyclical equations detected."

/-- `Recalculate` from cell.go, with an explicit fuel parameter making the
recursion total (fuel sufficiency is proved separately; exhausted fuel leaves
the state unchanged).  The Go `defer` ordering is preserved: in the main
branch the downstream cascade runs before the `recalculating` flag is reset;
in the first pass through a cycle the upstream cells are error-marked while
`errCycle` is set, and the flag is reset afterwards. -/
def Recalculate : Nat → Sheet → CellAddress → Sheet
  | 0, s, _ => s
  | fuel + 1, s, a =>
    match cellAt s a with
    | none => s
    | some c =>
      if c.recalculating then
        let s1 := mapCell s a (fun c0 =>
          let c1 := if c0.cell_type = .expr
                    then { c0 with expErr := some cycErrMsg } else c0
          { c1 with content := "##ERROR" })
        if c.errCycle then s1
        else
          let s2 := mapCell s1 a (fun c0 => { c0 with errCycle := true })
          let s3 := c.upstream.foldl (fun acc u => Recalculate fuel acc u) s2
          mapCell s3 a (fun c0 => { c0 with errCycle := false })
      else
        let s1 := mapCell s a (fun c0 => { c0 with recalculating := true })
        let s2 :=
          if c.cell_type = .expr then
            match c.exp with
            | some e =>
              match Eval e s1 with
              | .error err => mapCell s1 a (fun c0 =>
                  { c0 with expErr := some err, content := "##ERROR" })
              | .ok f => mapCell s1 a (fun c0 =>
                  { c0 with expErr := none, val := f, content := fmtFloat f })
            | none => s1
          else s1
        let s3 := c.downstream.foldl (fun acc d => Recalculate fuel acc d) s2
        mapCell s3 a (fun c0 => { c0 with recalculating := false })

/-- Fuel that always suffices for `Recalculate` (proved below): the depth of
nested active calls is bounded by the number of cells whose `recalculating`
flag is still clear plus the number whose `errCycle` flag is still clear,
plus one. -/
def recalcFuel (s : Sheet) : Nat := 2 * s.length + 2

/-- `SetContent` on a cell (cell.go), for a cell present at `a`: detach from
all upstream cells, classify the new content (empty / formula / numeric /
text), attach to the formula's referenced cells, then the deferred
`Recalculate` followed by the deferred `deleteSelfIfNecessary`. -/
def SetContentCell (s : Sheet) (a : CellAddress) (content : String) : Sheet :=
  match cellAt s a with
  | none => s
  | some c =>
    let s1 := c.upstream.foldl (fun acc u => removeDownstream acc u a) s
    let s2 := mapCell s1 a (fun c0 => { c0 with upstream := [] })
    let s3 :=
      if content = "" then
        mapCell s2 a (fun c0 => { NewCell a with downstream := c0.downstream })
      else if content.data.head? = some '=' then
        let s4 := mapCell s2 a (fun c0 =>
          { c0 with cell_type := .expr, expstr := content, exp := none })
        match ParseExpression content with
        | .error err => mapCell s4 a (fun c0 =>
            { c0 with expErr := some err, content := "##ERROR" })
        | .ok expr =>
          match expr.upstreamAddrs with
          | .error err => mapCell s4 a (fun c0 =>
              { c0 with expErr := some err, content := "##ERROR" })
          | .ok upAddrs =>
            let s5 := upAddrs.foldl
              (fun acc u => addDownstream (cellOrNewAt acc u) u a) s4
            mapCell s5 a (fun c0 => { c0 with upstream := upAddrs, exp := some expr })
      else
        match parseGoFloat content with
        | some f => mapCell s2 a (fun c0 =>
            { c0 with cell_type := .val, val := f, content := fmtFloat f })
        | none => mapCell s2 a (fun c0 =>
            { c0 with cell_type := .str, content := content })
    deleteSelfIfNecessary (Recalculate (recalcFuel s3) s3 a) a

/-- `SetContent` from sheet.go: validate the address; an empty content on a
missing cell is a no-op; otherwise fetch-or-create the cell and delegate. -/
def SetContent (s : Sheet) (addr content : String) : Except String Unit × Sheet :=
  match CellAddr addr with
  | .error e => (.error e, s)
  | .ok a =>
    if content = "" then
      match cellAt s a with
      | none => (.ok (), s)
      | some _ => (.ok (), SetContentCell (cellOrNewAt s a) a content)
    else (.ok (), SetContentCell (cellOrNewAt s a) a content)

/-- A sheet built from `NewSheet()` by a sequence of `SetContent` calls. -/
def runOps (ops : List (String × String)) : Sheet :=
  ops.foldl (fun s p => (SetContent s p.1 p.2).2) []

instance {ε α : Type} [DecidableEq ε] [DecidableEq α] : DecidableEq (Except ε α) :=
  fun x y =>
  match x, y with
  | .ok a, .ok b =>
    if h : a = b then .isTrue (by rw [h])
    else .isFalse (by intro hh; cases hh; exact h rfl)
  | .error a, .error b =>
    if h : a = b then .isTrue (by rw [h])
    else .isFalse (by intro hh; cases hh; exact h rfl)
  | .ok _, .error _ => .isFalse (by intro h; cases h)
  | .error _, .ok _ => .isFalse (by intro h; cases h)

/-! ## The export/ingest line protocol (sheet.go `WriteRange`, `read`, `Read`) -/

/-- One row of `WriteRange`: walk columns from `col` while `LEQCol end`,
emitting `"<addr> <len> <content>\n"` for each materialized cell
(`fmt.Sprintf("%s %d %s\n", col, len(command), command)` with
`command = EditValue`).  `NextCol`'s error is ignored in the Go `for` header
(`col, _ = col.NextCol()`), which zeroes the column; the fuel parameter makes
that (otherwise non-terminating, for ranges whose corner reaches column `ZZ`)
walk total. -/
def writeRangeRow : Nat → Sheet → CellAddress → CellAddress → String
  | 0, _, _, _ => ""
  | fuel + 1, s, col, enda =>
    if col.LEQCol enda then
      (match cellAt s col with
       | none => ""
       | some c =>
         let command := c.EditValue
         col.str ++ " " ++ Nat.repr command.length ++ " " ++ command ++ "\n") ++
      (match col.NextCol with
       | .ok nxt => writeRangeRow fuel s nxt enda
       | .error _ => writeRangeRow fuel s ⟨"", 0⟩ enda)
    else ""

/-- `WriteRange` from sheet.go: row-major over the closed rectangle. -/
def WriteRange (s : Sheet) (start enda : CellAddress) : String :=
  (List.range' start.row (enda.row + 1 - start.row)).foldl
    (fun acc row => acc ++ writeRangeRow 703 s ⟨start.col, row⟩ enda) ""

/-- The whitespace skipped by `fmt.Fscanf` verbs and format spaces when
newlines are not treated as spaces (the `Fscanf` mode). -/
def isScanSpace (c : Char) : Bool := c = ' ' ∨ c = '\t'

/-- `read` from sheet.go: `fmt.Fscanf(r, "%50s %d ", &addr, &clen)`, a length
check, `io.ReadFull` of `clen` bytes, `fmt.Fscanf(r, "\n")`, then `CellAddr`.
Note the trailing space in the first format string: `Fscanf` greedily skips
every space after the length field — including any leading spaces of the
content itself — before `ReadFull` runs; and the final `"\n"` also matches
end of input. -/
def read (input : List Char) : Except String ((CellAddress × String) × List Char) :=
  let r0 := input.dropWhile isScanSpace
  let token := (r0.takeWhile (fun c => ¬ isScanSpace c ∧ c ≠ '\n')).take 50
  if token = [] then .error "EOF"
  else
    let r1 := r0.drop token.length
    let r2 := r1.dropWhile isScanSpace
    let digits := r2.takeWhile Char.isDigit
    if digits = [] then .error "Expected address and length."
    else if digitsToNat digits ≥ 2 ^ 32 then .error "length out of range"
    else
      let clen := digitsToNat digits
      let r3 := r2.drop digits.length
      let r4 := r3.dropWhile isScanSpace
      if clen > 4096 then .error "Bad length for content. Must be less than 4096."
      else if r4.length < clen then .error "unexpected EOF"
      else
        let content := r4.take clen
        let r5 := r4.drop clen
        let r6 := r5.dropWhile isScanSpace
        match CellAddr (String.mk token) with
        | .error e => .error e
        | .ok a =>
          match r6 with
          | [] => .ok ((a, String.mk content), [])
          | '\n' :: r7 => .ok ((a, String.mk content), r7)
          | _ => .error "newline expected"

/-- The reader loop of the ingest side (as in the round-trip test): repeatedly
`(*Sheet).Read` — i.e. `read` one record then `SetContent` — until the first
error. -/
def ReadAll : Nat → Sheet → List Char → Sheet
  | 0, s, _ => s
  | fuel + 1, s, input =>
    match read input with
    | .error _ => s
    | .ok ((a, c), rest) =>
      match SetContent s a.str c with
      | (.error _, s2) => s2
      | (.ok _, s2) => ReadAll fuel s2 rest

/-- C3 (code bug): the claimed export/re-ingest round-trip breaks on a cell
whose content starts with a space.  A sheet with `A1 = " 5"` exports the
record `"A1 2  5\n"`, but `read`'s trailing format space consumes the
content's leading space, so the reimported cell holds `"5\n"`: `ContentAt`
after the round trip differs from the original, contradicting the claim
(and §6 of the spec, which requires the content bytes to be exactly the
declared `len` bytes). -/
theorem C3_roundtrip_failure :
    WriteRange (runOps [("A1", " 5")]) ⟨"A", 1⟩ ⟨"A", 1⟩ = "A1 2  5\n" ∧
    read ("A1 2  5\n").data = .ok ((⟨"A", 1⟩, "5\n"), []) ∧
    ContentAt (runOps [("A1", " 5")]) "A1" = .ok " 5" ∧
    ContentAt (ReadAll 8 [] ("A1 2  5\n").data) "A1" = .ok "5\n" := by
  refine ⟨rfl, by decide, by decide, by decide⟩

/-! ## The evaluator (claim C1) -/

/-- C1: for every expression tree whose root is an add, subtract, multiply or
divide node with both children present, and whose children evaluate
successfully against the sheet (in particular when the referenced cells hold
numeric values), `Eval` returns normally with the result of applying the
corresponding arithmetic operator to the recursively evaluated children —
subtraction, multiplication and division included, with no abort.  (`Eval` of
the current `sheet` package is absent from the sources and is modelled from
§4.3 of the spec; exact rationals stand in for IEEE doubles.) -/
theorem C1_eval_operators (s : Sheet) (l r : Expression) (x y : ℚ)
    (hl : Eval l s = .ok x) (hr : Eval r s = .ok y) :
    Eval (.mk .ADD (some l) (some r) "") s = .ok (x + y) ∧
    Eval (.mk .SUB (some l) (some r) "") s = .ok (x - y) ∧
    Eval (.mk .MUL (some l) (some r) "") s = .ok (x * y) ∧
    Eval (.mk .DIV (some l) (some r) "") s = .ok (x / y) := by
  refine ⟨?_, ?_, ?_, ?_⟩ <;> rw [Eval, hl, hr]

theorem C1_eval_operators_witness :
    Eval (.mk .ADD (some (.mk .ID none none "A2"))
        (some (.mk .ID none none "A3")) "")
      (runOps [("A2", "5"), ("A3", "6")]) = .ok ((5 : ℚ) + 6) ∧
    Eval (.mk .SUB (some (.mk .ID none none "A2"))
        (some (.mk .ID none none "A3")) "")
      (runOps [("A2", "5"), ("A3", "6")]) = .ok ((5 : ℚ) - 6) ∧
    Eval (.mk .MUL (some (.mk .ID none none "A2"))
        (some (.mk .ID none none "A3")) "")
      (runOps [("A2", "5"), ("A3", "6")]) = .ok ((5 : ℚ) * 6) ∧
    Eval (.mk .DIV (some (.mk .ID none none "A2"))
        (some (.mk .ID none none "A3")) "")
      (runOps [("A2", "5"), ("A3", "6")]) = .ok ((5 : ℚ) / 6) :=
  C1_eval_operators (runOps [("A2", "5"), ("A3", "6")])
    (.mk .ID none none "A2") (.mk .ID none none "A3") 5 6
    (by with_unfolding_all rfl) (by with_unfolding_all rfl)

/-! ## Primitive lemmas about the sheet map operations -/

theorem cellAt_mapCell_self (s : Sheet) (a : CellAddress) (f : Cell → Cell) :
    cellAt (mapCell s a f) a = (cellAt s a).map f := by
  induction s with
  | nil => rfl
  | cons kc t ih =>
    obtain ⟨k, c⟩ := kc
    simp only [mapCell, List.map_cons]
    by_cases hk : k = a
    · rw [show (if ((k, c) : CellAddress × Cell).1 = a then ((k, c).1, f (k, c).2)
          else (k, c)) = (k, f c) from by simp [hk]]
      simp [cellAt, hk]
    · rw [show (if ((k, c) : CellAddress × Cell).1 = a then ((k, c).1, f (k, c).2)
          else (k, c)) = (k, c) from by simp [hk]]
      simp only [cellAt, if_neg hk]
      exact ih

theorem cellAt_mapCell_ne (s : Sheet) (a b : CellAddress) (f : Cell → Cell)
    (h : b ≠ a) : cellAt (mapCell s a f) b = cellAt s b := by
  induction s with
  | nil => rfl
  | cons kc t ih =>
    obtain ⟨k, c⟩ := kc
    by_cases hk : k = a
    · have hkb : k ≠ b := fun hh => h ((hh ▸ hk : b = a))
      simp only [mapCell, List.map_cons, if_pos hk]
      simp only [cellAt, if_neg hkb]
      exact ih
    · simp only [mapCell, List.map_cons, if_neg hk]
      simp only [cellAt]
      by_cases hb : k = b
      · simp [hb]
      · simp only [if_neg hb]
        exact ih

theorem keys_mapCell (s : Sheet) (a : CellAddress) (f : Cell → Cell) :
    (mapCell s a f).map Prod.fst = s.map Prod.fst := by
  induction s with
  | nil => rfl
  | cons kc t ih =>
    obtain ⟨k, c⟩ := kc
    by_cases hk : k = a <;> simp [mapCell, hk] at ih ⊢ <;> exact ih

theorem erase_cons_drop {k : CellAddress} {c : Cell} {t : Sheet} {a : CellAddress}
    (hk : k = a) : eraseCell ((k, c) :: t) a = eraseCell t a := by
  simp [eraseCell, List.filter_cons, hk]

theorem erase_cons_keep {k : CellAddress} {c : Cell} {t : Sheet} {a : CellAddress}
    (hk : ¬k = a) : eraseCell ((k, c) :: t) a = (k, c) :: eraseCell t a := by
  simp [eraseCell, List.filter_cons, hk]

theorem cellAt_erase_self (s : Sheet) (a : CellAddress) :
    cellAt (eraseCell s a) a = none := by
  induction s with
  | nil => rfl
  | cons kc t ih =>
    obtain ⟨k, c⟩ := kc
    by_cases hk : k = a
    · rw [erase_cons_drop hk]
      exact ih
    · rw [erase_cons_keep hk]
      simp only [cellAt, if_neg hk]
      exact ih

theorem cellAt_erase_ne (s : Sheet) (a b : CellAddress) (h : b ≠ a) :
    cellAt (eraseCell s a) b = cellAt s b := by
  induction s with
  | nil => rfl
  | cons kc t ih =>
    obtain ⟨k, c⟩ := kc
    by_cases hk : k = a
    · rw [erase_cons_drop hk]
      rw [show cellAt ((k, c) :: t) b = cellAt t b from by
        simp [cellAt, show ¬k = b from fun hh => h ((hh ▸ hk : b = a))]]
      exact ih
    · rw [erase_cons_keep hk]
      simp only [cellAt]
      by_cases hb : k = b
      · simp [hb]
      · simp only [if_neg hb]
        exact ih

theorem cellAt_append_of_some {s : Sheet} {b : CellAddress} {c : Cell}
    (h : cellAt s b = some c) (x : CellAddress × Cell) :
    cellAt (s ++ [x]) b = some c := by
  induction s with
  | nil => cases h
  | cons kc t ih =>
    obtain ⟨k, c2⟩ := kc
    simp only [cellAt] at h
    by_cases hk : k = b
    · simp only [List.cons_append, cellAt, if_pos hk]
      rw [if_pos hk] at h
      exact h
    · rw [if_neg hk] at h
      simp only [List.cons_append, cellAt, if_neg hk]
      exact ih h

theorem cellAt_append_of_none {s : Sheet} {b : CellAddress}
    (h : cellAt s b = none) (a : CellAddress) (c : Cell) :
    cellAt (s ++ [(a, c)]) b = if a = b then some c else none := by
  induction s with
  | nil => rfl
  | cons kc t ih =>
    obtain ⟨k, c2⟩ := kc
    simp only [cellAt] at h
    by_cases hk : k = b
    · rw [if_pos hk] at h
      cases h
    · rw [if_neg hk] at h
      simp only [List.cons_append, cellAt, if_neg hk]
      exact ih h

theorem cellAt_cellOrNewAt_self (s : Sheet) (a : CellAddress) :
    cellAt (cellOrNewAt s a) a =
      some ((cellAt s a).getD (NewCell a)) := by
  unfold cellOrNewAt
  cases h : cellAt s a with
  | some c => simp [h]
  | none => rw [cellAt_append_of_none h a (NewCell a)]; simp

theorem cellAt_cellOrNewAt_ne (s : Sheet) (a b : CellAddress) (h : b ≠ a) :
    cellAt (cellOrNewAt s a) b = cellAt s b := by
  unfold cellOrNewAt
  cases hm : cellAt s a with
  | some c => rfl
  | none =>
    cases hb : cellAt s b with
    | some c => exact cellAt_append_of_some hb _
    | none => rw [cellAt_append_of_none hb a (NewCell a), if_neg (fun hh => h hh.symm)]

/-! ### Counting lemmas for the swap-with-last removal -/

theorem swapRemove_not_mem {l : List CellAddress} {a : CellAddress} (h : a ∉ l) :
    swapRemoveAddr l a = l := by
  simp [swapRemoveAddr, h]

theorem swapRemove_decomp {l : List CellAddress} {a : CellAddress} (h : a ∈ l) :
    ∃ T D, l = T ++ a :: D ∧
      swapRemoveAddr l a = (T ++ (l.getLast (List.ne_nil_of_mem h)) :: D).dropLast := by
  have hi : l.indexOf a < l.length := List.indexOf_lt_length.mpr h
  refine ⟨l.take (l.indexOf a), l.drop (l.indexOf a + 1), ?_, ?_⟩
  · conv_lhs => rw [← List.take_append_drop (l.indexOf a) l]
    rw [List.drop_eq_getElem_cons hi, List.getElem_indexOf hi]
  · have hlast : l.getLast? = some (l.getLast (List.ne_nil_of_mem h)) :=
      List.getLast?_eq_getLast _ _
    rw [swapRemoveAddr, if_pos h, hlast]
    show (l.set (List.indexOf a l) (l.getLast (List.ne_nil_of_mem h))).dropLast = _
    rw [List.set_eq_take_append_cons_drop, if_pos hi]

theorem swapRemove_count_self {l : List CellAddress} {a : CellAddress} (h : a ∈ l) :
    (swapRemoveAddr l a).count a = l.count a - 1 := by
  obtain ⟨T, D, hdec, hrw⟩ := swapRemove_decomp h
  rcases List.eq_nil_or_concat D with hD | ⟨D2, d, hD⟩
  · subst hD
    have hlast : l.getLast (List.ne_nil_of_mem h) = a := by
      rw [show l.getLast (List.ne_nil_of_mem h) =
          (T ++ [a]).getLast (by simp) from by congr 1 <;> simp [hdec]]
      exact List.getLast_concat _
    rw [hrw, hlast, List.dropLast_concat, hdec]
    simp
  · rw [List.concat_eq_append] at hD
    subst hD
    have hlast : l.getLast (List.ne_nil_of_mem h) = d := by
      rw [show l.getLast (List.ne_nil_of_mem h) =
          ((T ++ a :: D2) ++ [d]).getLast (by simp) from by congr 1 <;>
            simp [hdec]]
      exact List.getLast_concat _
    rw [hrw, hlast]
    rw [show T ++ d :: (D2 ++ [d]) = (T ++ d :: D2) ++ [d] from by simp]
    rw [List.dropLast_concat, hdec]
    simp [List.count_append, List.count_cons]

theorem swapRemove_count_ne {l : List CellAddress} {a x : CellAddress} (hx : x ≠ a) :
    (swapRemoveAddr l a).count x = l.count x := by
  by_cases h : a ∈ l
  · obtain ⟨T, D, hdec, hrw⟩ := swapRemove_decomp h
    rcases List.eq_nil_or_concat D with hD | ⟨D2, d, hD⟩
    · subst hD
      have hlast : l.getLast (List.ne_nil_of_mem h) = a := by
        rw [show l.getLast (List.ne_nil_of_mem h) =
            (T ++ [a]).getLast (by simp) from by congr 1 <;> simp [hdec]]
        exact List.getLast_concat _
      rw [hrw, hlast, List.dropLast_concat, hdec]
      simp [List.count_append, List.count_cons, hx]
    · rw [List.concat_eq_append] at hD
      subst hD
      have hlast : l.getLast (List.ne_nil_of_mem h) = d := by
        rw [show l.getLast (List.ne_nil_of_mem h) =
            ((T ++ a :: D2) ++ [d]).getLast (by simp) from by congr 1 <;>
              simp [hdec]]
        exact List.getLast_concat _
      rw [hrw, hlast]
      rw [show T ++ d :: (D2 ++ [d]) = (T ++ d :: D2) ++ [d] from by simp]
      rw [List.dropLast_concat, hdec]
      simp [List.count_append, List.count_cons, hx]
  · rw [swapRemove_not_mem h]

theorem swapRemove_subset {l : List CellAddress} {a : CellAddress} :
    ∀ y ∈ swapRemoveAddr l a, y ∈ l := by
  intro y hy
  by_cases h : a ∈ l
  · obtain ⟨T, D, hdec, hrw⟩ := swapRemove_decomp h
    rw [hrw] at hy
    have hsub := List.dropLast_sublist (T ++ l.getLast (List.ne_nil_of_mem h) :: D)
    have hy2 := hsub.mem hy
    rcases List.mem_append.mp hy2 with hT | hD
    · rw [hdec]
      exact List.mem_append.mpr (Or.inl hT)
    · rcases List.mem_cons.mp hD with he | hD2
      · subst he
        exact List.getLast_mem _
      · rw [hdec]
        exact List.mem_append.mpr (Or.inr (List.mem_cons.mpr (Or.inr hD2)))
  · rwa [swapRemove_not_mem h] at hy

/-- C2: on a fresh sheet, after `SetContent("A1","=A2")`,
`SetContent("A2","=A3")`, `SetContent("A3","=A1")` in that order, each of the
three calls returns without error, and `ContentAt` of each of `A1`, `A2`, `A3`
returns exactly `"<addr>: Cyclical equations detected."` with `<addr>` the
cell's own address. -/
theorem C2_cycle_detection :
    (SetContent [] "A1" "=A2").1 = .ok () ∧
    (SetContent (SetContent [] "A1" "=A2").2 "A2" "=A3").1 = .ok () ∧
    (SetContent (SetContent (SetContent [] "A1" "=A2").2 "A2" "=A3").2
      "A3" "=A1").1 = .ok () ∧
    ContentAt (runOps [("A1", "=A2"), ("A2", "=A3"), ("A3", "=A1")]) "A1" =
      .ok "A1: Cyclical equations detected." ∧
    ContentAt (runOps [("A1", "=A2"), ("A2", "=A3"), ("A3", "=A1")]) "A2" =
      .ok "A2: Cyclical equations detected." ∧
    ContentAt (runOps [("A1", "=A2"), ("A2", "=A3"), ("A3", "=A1")]) "A3" =
      .ok "A3: Cyclical equations detected." :=
  ⟨rfl, rfl, rfl, by decide, by decide, by decide⟩

/-! ## `Recalculate` structure: named phases and unfolding equation -/

/-- The error-marking step of the cycle branch of `Recalculate`. -/
def recalcMark (s : Sheet) (a : CellAddress) : Sheet :=
  mapCell s a (fun c0 =>
    let c1 := if c0.cell_type = CellType.expr
              then { c0 with expErr := some cycErrMsg } else c0
    { c1 with content := "##ERROR" })

/-- The flag-raising and evaluation step of the main branch of
`Recalculate`. -/
def recalcEvalStep (s : Sheet) (a : CellAddress) (c : Cell) : Sheet :=
  let s1 := mapCell s a (fun c0 => { c0 with recalculating := true })
  if c.cell_type = CellType.expr then
    match c.exp with
    | some e =>
      match Eval e s1 with
      | .error err => mapCell s1 a (fun c0 =>
          { c0 with expErr := some err, content := "##ERROR" })
      | .ok f => mapCell s1 a (fun c0 =>
          { c0 with expErr := none, val := f, content := fmtFloat f })
    | none => s1
  else s1

/-- Unfolding equation for `Recalculate` at a present cell. -/
theorem Recalculate_succ (fuel : Nat) {s : Sheet} {a : CellAddress} {c : Cell}
    (hc : cellAt s a = some c) :
    Recalculate (fuel + 1) s a =
      if c.recalculating then
        if c.errCycle then recalcMark s a
        else
          mapCell (c.upstream.foldl (fun acc u => Recalculate fuel acc u)
              (mapCell (recalcMark s a) a (fun c0 => { c0 with errCycle := true })))
            a (fun c0 => { c0 with errCycle := false })
      else
        mapCell (c.downstream.foldl (fun acc d => Recalculate fuel acc d)
            (recalcEvalStep s a c))
          a (fun c0 => { c0 with recalculating := false }) := by
  rw [Recalculate, hc]
  rfl

/-! ## Section B: `Recalculate` preserves the dependency skeleton -/

/-- The recalculation-invariant part of a cell: its type, dependency lists and
attached expression.  `Recalculate` only rewrites values, display strings,
errors and the two traversal flags. -/
def Cell.skel (c : Cell) : CellType × List CellAddress × List CellAddress × Option Expression :=
  (c.cell_type, c.upstream, c.downstream, c.exp)

/-- Two sheets with the same keys, presenting the same cells with the same
skeletons. -/
def SkelEq (s t : Sheet) : Prop :=
  s.map Prod.fst = t.map Prod.fst ∧
  ∀ x, (cellAt s x).map Cell.skel = (cellAt t x).map Cell.skel

theorem skelEq_refl (s : Sheet) : SkelEq s s := ⟨rfl, fun _ => rfl⟩

theorem skelEq_trans {s t u : Sheet} (h1 : SkelEq s t) (h2 : SkelEq t u) :
    SkelEq s u :=
  ⟨h1.1.trans h2.1, fun x => (h1.2 x).trans (h2.2 x)⟩

theorem skelEq_mapCell (s : Sheet) (a : CellAddress) (f : Cell → Cell)
    (hf : ∀ c, Cell.skel (f c) = Cell.skel c) : SkelEq (mapCell s a f) s := by
  refine ⟨keys_mapCell s a f, ?_⟩
  intro x
  by_cases hx : x = a
  · subst hx
    rw [cellAt_mapCell_self]
    cases cellAt s x with
    | none => rfl
    | some c =>
      show some (Cell.skel (f c)) = some (Cell.skel c)
      rw [hf]
  · rw [cellAt_mapCell_ne _ _ _ _ hx]

theorem skelEq_foldl {g : Sheet → CellAddress → Sheet}
    (hg : ∀ s a, SkelEq (g s a) s) :
    ∀ (L : List CellAddress) (s : Sheet), SkelEq (L.foldl g s) s := by
  intro L
  induction L with
  | nil => intro s; exact skelEq_refl s
  | cons u t ih => intro s; exact skelEq_trans (ih (g s u)) (hg s u)

theorem mapCell_of_none {s : Sheet} {u : CellAddress} (h : cellAt s u = none)
    (f : Cell → Cell) : mapCell s u f = s := by
  induction s with
  | nil => rfl
  | cons kc t ih =>
    obtain ⟨k, c⟩ := kc
    simp only [cellAt] at h
    by_cases hk : k = u
    · rw [if_pos hk] at h; cases h
    · rw [if_neg hk] at h
      simp only [mapCell, List.map_cons]
      rw [show (if ((k, c) : CellAddress × Cell).1 = u then ((k, c).1, f (k, c).2)
          else (k, c)) = (k, c) from by simp [hk]]
      show (k, c) :: mapCell t u f = (k, c) :: t
      rw [ih h]

theorem deleteSelf_of_none {s : Sheet} {a : CellAddress}
    (h : cellAt s a = none) : deleteSelfIfNecessary s a = s := by
  unfold deleteSelfIfNecessary
  rw [h]

theorem deleteSelf_of_keep {s : Sheet} {a : CellAddress} {c : Cell}
    (h : cellAt s a = some c)
    (hk : ¬(c.cell_type = CellType.transient ∧ c.downstream = [])) :
    deleteSelfIfNecessary s a = s := by
  unfold deleteSelfIfNecessary
  rw [h]
  exact if_neg hk

theorem deleteSelf_of_del {s : Sheet} {a : CellAddress} {c : Cell}
    (h : cellAt s a = some c) (h1 : c.cell_type = CellType.transient)
    (h2 : c.downstream = []) :
    deleteSelfIfNecessary s a = eraseCell s a := by
  unfold deleteSelfIfNecessary
  rw [h]
  exact if_pos ⟨h1, h2⟩

theorem skelEq_recalcMark (s : Sheet) (a : CellAddress) :
    SkelEq (recalcMark s a) s := by
  unfold recalcMark
  refine skelEq_mapCell _ _ _ ?_
  intro c0
  by_cases ht : c0.cell_type = CellType.expr <;> simp [Cell.skel, ht]

theorem skelEq_recalcEvalStep (s : Sheet) (a : CellAddress) (c : Cell) :
    SkelEq (recalcEvalStep s a c) s := by
  unfold recalcEvalStep
  by_cases ht : c.cell_type = CellType.expr
  · rw [if_pos ht]
    split
    · split
      · refine skelEq_trans (skelEq_mapCell _ _ _ ?_) (skelEq_mapCell _ _ _ ?_) <;>
          (intro c0; simp [Cell.skel])
      · refine skelEq_trans (skelEq_mapCell _ _ _ ?_) (skelEq_mapCell _ _ _ ?_) <;>
          (intro c0; simp [Cell.skel])
    · refine skelEq_mapCell _ _ _ ?_
      intro c0; simp [Cell.skel]
  · rw [if_neg ht]
    refine skelEq_mapCell _ _ _ ?_
    intro c0; simp [Cell.skel]

/-- `Recalculate` never creates or deletes cells and never touches a cell's
type, dependency lists or attached expression. -/
theorem recalc_skelEq : ∀ (fuel : Nat) (s : Sheet) (a : CellAddress),
    SkelEq (Recalculate fuel s a) s := by
  intro fuel
  induction fuel with
  | zero => intro s a; exact skelEq_refl s
  | succ fuel ih =>
    intro s a
    cases hc : cellAt s a with
    | none =>
      rw [Recalculate, hc]
      exact skelEq_refl s
    | some c =>
      rw [Recalculate_succ fuel hc]
      by_cases hr : c.recalculating
      · rw [if_pos hr]
        by_cases he : c.errCycle
        · rw [if_pos he]
          exact skelEq_recalcMark s a
        · rw [if_neg he]
          refine skelEq_trans (skelEq_mapCell _ _ _ ?_)
            (skelEq_trans (skelEq_foldl ih _ _)
              (skelEq_trans (skelEq_mapCell _ _ _ ?_) (skelEq_recalcMark s a)))
          · intro c0; simp [Cell.skel]
          · intro c0; simp [Cell.skel]
      · rw [if_neg hr]
        refine skelEq_trans (skelEq_mapCell _ _ _ ?_)
          (skelEq_trans (skelEq_foldl ih _ _) (skelEq_recalcEvalStep s a c))
        intro c0; simp [Cell.skel]

/-! ## Section C: fuel sufficiency for `Recalculate` (claim C7) -/

/-- The two traversal flags of the cell at an address. -/
def flagsOf (s : Sheet) (x : CellAddress) : Option (Bool × Bool) :=
  (cellAt s x).map (fun c => (c.recalculating, c.errCycle))

/-- The contribution of one cell to the termination measure. -/
def flagBits (c : Cell) : Nat :=
  (cond c.recalculating 0 1) + (cond c.errCycle 0 1)

/-- The termination measure: entries whose `recalculating` flag is clear plus
entries whose `errCycle` flag is clear. -/
def nOpen (s : Sheet) : Nat :=
  s.countP (fun kc => !kc.2.recalculating) + s.countP (fun kc => !kc.2.errCycle)

theorem flagsOf_eq_some {s : Sheet} {x : CellAddress} {p : Bool × Bool}
    (h : flagsOf s x = some p) :
    ∃ c, cellAt s x = some c ∧ c.recalculating = p.1 ∧ c.errCycle = p.2 := by
  unfold flagsOf at h
  cases hc : cellAt s x with
  | none => rw [hc] at h; cases h
  | some c =>
    rw [hc] at h
    have h2 := Option.some.inj h
    exact ⟨c, rfl, by rw [← h2], by rw [← h2]⟩

theorem flagsOf_mapCell_ne {s : Sheet} {a x : CellAddress} (f : Cell → Cell)
    (hx : x ≠ a) : flagsOf (mapCell s a f) x = flagsOf s x := by
  unfold flagsOf
  rw [cellAt_mapCell_ne _ _ _ _ hx]

theorem flagsOf_mapCell_self (s : Sheet) (a : CellAddress) (f : Cell → Cell) :
    flagsOf (mapCell s a f) a =
      (cellAt s a).map (fun c => ((f c).recalculating, (f c).errCycle)) := by
  unfold flagsOf
  rw [cellAt_mapCell_self]
  cases cellAt s a <;> rfl

theorem flagsOf_mapCell_pres {s : Sheet} {a : CellAddress} {f : Cell → Cell}
    (hf : ∀ c0, (f c0).recalculating = c0.recalculating ∧ (f c0).errCycle = c0.errCycle) :
    ∀ x, flagsOf (mapCell s a f) x = flagsOf s x := by
  intro x
  by_cases hx : x = a
  · subst hx
    rw [flagsOf_mapCell_self]
    unfold flagsOf
    cases cellAt s x with
    | none => rfl
    | some c0 => simp [(hf c0).1, (hf c0).2]
  · exact flagsOf_mapCell_ne f hx

theorem countP_mapCell {s : Sheet} {a : CellAddress} {f : Cell → Cell}
    (p : CellAddress × Cell → Bool) (hf : ∀ k c, p (k, f c) = p (k, c)) :
    (mapCell s a f).countP p = s.countP p := by
  induction s with
  | nil => rfl
  | cons kc t ih =>
    obtain ⟨k, c0⟩ := kc
    show List.countP p (List.map _ ((k, c0) :: t)) = _
    rw [List.map_cons, List.countP_cons, List.countP_cons]
    have hmap : List.countP p
        (List.map (fun kc => if kc.1 = a then (kc.1, f kc.2) else kc) t) =
        List.countP p t := ih
    rw [hmap]
    by_cases hk : k = a
    · rw [show (if ((k, c0) : CellAddress × Cell).1 = a then ((k, c0).1, f (k, c0).2)
          else (k, c0)) = (k, f c0) from by simp [hk], hf k c0]
    · rw [show (if ((k, c0) : CellAddress × Cell).1 = a then ((k, c0).1, f (k, c0).2)
          else (k, c0)) = (k, c0) from by simp [hk]]

theorem nOpen_mapCell_pres {s : Sheet} {a : CellAddress} {f : Cell → Cell}
    (hf : ∀ c0, (f c0).recalculating = c0.recalculating ∧ (f c0).errCycle = c0.errCycle) :
    nOpen (mapCell s a f) = nOpen s := by
  unfold nOpen
  rw [countP_mapCell _ (fun k c => by simp [(hf c).1]),
    countP_mapCell _ (fun k c => by simp [(hf c).2])]

theorem cellAt_decomp {s : Sheet} {a : CellAddress} {c : Cell}
    (h : cellAt s a = some c) :
    ∃ T D, s = T ++ (a, c) :: D ∧ ∀ kc ∈ T, kc.1 ≠ a := by
  induction s with
  | nil => cases h
  | cons kc t ih =>
    obtain ⟨k, c0⟩ := kc
    by_cases hk : k = a
    · refine ⟨[], t, ?_, by simp⟩
      have hcc : c0 = c := by
        simp only [cellAt, if_pos hk] at h
        exact Option.some.inj h
      rw [hcc, hk]
      rfl
    · have h2 : cellAt t a = some c := by
        simpa only [cellAt, if_neg hk] using h
      obtain ⟨T, D, hdec, hT⟩ := ih h2
      refine ⟨(k, c0) :: T, D, ?_, ?_⟩
      · rw [List.cons_append, hdec]
      · intro x hx
        rcases List.mem_cons.mp hx with rfl | hx2
        · exact hk
        · exact hT x hx2

theorem nodup_right_ne {T D : Sheet} {a : CellAddress} {c : Cell}
    (h : ((T ++ (a, c) :: D).map Prod.fst).Nodup) : ∀ kc ∈ D, kc.1 ≠ a := by
  intro kc hkc hEq
  rw [List.map_append, List.map_cons] at h
  have h2 := h.of_append_right
  have hmem : a ∈ D.map Prod.fst := by
    rw [← hEq]
    exact List.mem_map_of_mem Prod.fst hkc
  exact (List.nodup_cons.mp h2).1 hmem

theorem mapCell_map_id {T : Sheet} {a : CellAddress} (f : Cell → Cell)
    (hT : ∀ kc ∈ T, kc.1 ≠ a) :
    T.map (fun kc => if kc.1 = a then (kc.1, f kc.2) else kc) = T := by
  induction T with
  | nil => rfl
  | cons kc t ih =>
    rw [List.map_cons, if_neg (hT kc (List.mem_cons_self kc t)),
      ih (fun x hx => hT x (List.mem_cons_of_mem kc hx))]

theorem mapCell_decomp {T D : Sheet} {a : CellAddress} {c : Cell} (f : Cell → Cell)
    (hT : ∀ kc ∈ T, kc.1 ≠ a) (hD : ∀ kc ∈ D, kc.1 ≠ a) :
    mapCell (T ++ (a, c) :: D) a f = T ++ (a, f c) :: D := by
  unfold mapCell
  rw [List.map_append, List.map_cons, mapCell_map_id f hT, mapCell_map_id f hD]
  simp

theorem nOpen_append_cons (T D : Sheet) (a : CellAddress) (c : Cell) :
    nOpen (T ++ (a, c) :: D) = nOpen T + nOpen D + flagBits c := by
  unfold nOpen flagBits
  simp only [List.countP_append, List.countP_cons]
  cases c.recalculating <;> cases c.errCycle <;> simp <;> omega

theorem nOpen_mapCell_set {s : Sheet} {a : CellAddress} {c : Cell}
    (hnd : (s.map Prod.fst).Nodup) (hc : cellAt s a = some c) (f : Cell → Cell) :
    nOpen (mapCell s a f) + flagBits c = nOpen s + flagBits (f c) := by
  obtain ⟨T, D, hdec, hT⟩ := cellAt_decomp hc
  subst hdec
  have hD := nodup_right_ne hnd
  rw [mapCell_decomp f hT hD, nOpen_append_cons, nOpen_append_cons]
  omega

theorem flagsOf_recalcMark (s : Sheet) (a : CellAddress) :
    ∀ x, flagsOf (recalcMark s a) x = flagsOf s x := by
  unfold recalcMark
  exact flagsOf_mapCell_pres (fun c0 => by
    by_cases ht : c0.cell_type = CellType.expr <;> simp [ht])

theorem nOpen_recalcMark (s : Sheet) (a : CellAddress) :
    nOpen (recalcMark s a) = nOpen s := by
  unfold recalcMark
  exact nOpen_mapCell_pres (fun c0 => by
    by_cases ht : c0.cell_type = CellType.expr <;> simp [ht])

theorem recalcEvalStep_cases (s : Sheet) (a : CellAddress) (c : Cell) :
    recalcEvalStep s a c = mapCell s a (fun c0 => { c0 with recalculating := true }) ∨
    ∃ g : Cell → Cell,
      recalcEvalStep s a c =
        mapCell (mapCell s a (fun c0 => { c0 with recalculating := true })) a g ∧
      (∀ c0, (g c0).recalculating = c0.recalculating ∧ (g c0).errCycle = c0.errCycle) := by
  unfold recalcEvalStep
  by_cases ht : c.cell_type = CellType.expr
  · rw [if_pos ht]
    split
    · split
      · exact Or.inr ⟨_, rfl, fun c0 => ⟨rfl, rfl⟩⟩
      · exact Or.inr ⟨_, rfl, fun c0 => ⟨rfl, rfl⟩⟩
    · exact Or.inl rfl
  · rw [if_neg ht]
    exact Or.inl rfl

theorem flagsOf_recalcEvalStep (s : Sheet) (a : CellAddress) (c : Cell) :
    (∀ x, x ≠ a → flagsOf (recalcEvalStep s a c) x = flagsOf s x) ∧
    flagsOf (recalcEvalStep s a c) a =
      (cellAt s a).map (fun c0 => (true, c0.errCycle)) := by
  have base_ne : ∀ x, x ≠ a →
      flagsOf (mapCell s a (fun c0 => { c0 with recalculating := true })) x =
      flagsOf s x :=
    fun x hx => flagsOf_mapCell_ne _ hx
  have base_self :
      flagsOf (mapCell s a (fun c0 => { c0 with recalculating := true })) a =
      (cellAt s a).map (fun c0 => (true, c0.errCycle)) := by
    rw [flagsOf_mapCell_self]
  rcases recalcEvalStep_cases s a c with h | ⟨g, h, hg⟩
  · rw [h]
    exact ⟨base_ne, base_self⟩
  · rw [h]
    exact ⟨fun x hx => (flagsOf_mapCell_pres hg x).trans (base_ne x hx),
      (flagsOf_mapCell_pres hg a).trans base_self⟩

theorem nOpen_recalcEvalStep {s : Sheet} {a : CellAddress} {c0 : Cell} (c : Cell)
    (hnd : (s.map Prod.fst).Nodup) (hc : cellAt s a = some c0)
    (hr : c0.recalculating = false) :
    nOpen (recalcEvalStep s a c) + 1 = nOpen s := by
  have h1 : nOpen (mapCell s a (fun c0 => { c0 with recalculating := true })) + 1 =
      nOpen s := by
    have h2 := nOpen_mapCell_set hnd hc (fun c0 => { c0 with recalculating := true })
    unfold flagBits at h2
    rw [hr] at h2
    simp at h2
    omega
  rcases recalcEvalStep_cases s a c with h | ⟨g, h, hg⟩
  · rw [h]
    exact h1
  · rw [h, nOpen_mapCell_pres hg]
    exact h1

/-- Chaining fuel stability through a `foldl` of recursive `Recalculate`
calls. -/
theorem recalc_foldl_stable (fuel : Nat)
    (IH : ∀ s a, (s.map Prod.fst).Nodup → nOpen s + 1 ≤ fuel →
      (∀ x, flagsOf (Recalculate fuel s a) x = flagsOf s x) ∧
      nOpen (Recalculate fuel s a) = nOpen s ∧
      Recalculate (fuel + 1) s a = Recalculate fuel s a) :
    ∀ (L : List CellAddress) (s : Sheet),
      (s.map Prod.fst).Nodup → nOpen s + 1 ≤ fuel →
      (∀ x, flagsOf (L.foldl (fun acc u => Recalculate fuel acc u) s) x = flagsOf s x) ∧
      nOpen (L.foldl (fun acc u => Recalculate fuel acc u) s) = nOpen s ∧
      L.foldl (fun acc u => Recalculate (fuel + 1) acc u) s =
        L.foldl (fun acc u => Recalculate fuel acc u) s := by
  intro L
  induction L with
  | nil => intro s hnd hm; exact ⟨fun x => rfl, rfl, rfl⟩
  | cons u t ih =>
    intro s hnd hm
    simp only [List.foldl_cons]
    obtain ⟨h1, h2, h3⟩ := IH s u hnd hm
    have hnd2 : ((Recalculate fuel s u).map Prod.fst).Nodup := by
      rw [(recalc_skelEq fuel s u).1]; exact hnd
    have hm2 : nOpen (Recalculate fuel s u) + 1 ≤ fuel := by rw [h2]; exact hm
    obtain ⟨g1, g2, g3⟩ := ih (Recalculate fuel s u) hnd2 hm2
    refine ⟨fun x => (g1 x).trans (h1 x), g2.trans h2, ?_⟩
    rw [h3]
    exact g3

/-- Fuel stability for `Recalculate`: on a sheet with no duplicate keys, any
fuel exceeding the number of clear flags plus one gives the same result, and
the traversal flags of every cell are restored on exit. -/
theorem recalc_stable : ∀ (fuel : Nat) (s : Sheet) (a : CellAddress),
    (s.map Prod.fst).Nodup → nOpen s + 1 ≤ fuel →
    (∀ x, flagsOf (Recalculate fuel s a) x = flagsOf s x) ∧
    nOpen (Recalculate fuel s a) = nOpen s ∧
    Recalculate (fuel + 1) s a = Recalculate fuel s a := by
  intro fuel
  induction fuel with
  | zero => intro s a hnd hm; exact absurd hm (by omega)
  | succ fuel ih =>
    intro s a hnd hm
    cases hc : cellAt s a with
    | none =>
      have e1 : Recalculate (fuel + 1) s a = s := by rw [Recalculate, hc]
      have e2 : Recalculate (fuel + 1 + 1) s a = s := by rw [Recalculate, hc]
      rw [e1, e2]
      exact ⟨fun x => rfl, rfl, rfl⟩
    | some c =>
      have E1 := Recalculate_succ fuel hc
      have E2 := Recalculate_succ (fuel + 1) hc
      by_cases hr : c.recalculating
      · by_cases he : c.errCycle
        · rw [E1, E2, if_pos hr, if_pos hr, if_pos he, if_pos he]
          exact ⟨flagsOf_recalcMark s a, nOpen_recalcMark s a, rfl⟩
        · have heb : c.errCycle = false := by
            rw [← Bool.not_eq_true]; exact he
          have hcm : cellAt (recalcMark s a) a = some
              (let c1 := if c.cell_type = CellType.expr
                         then { c with expErr := some cycErrMsg } else c
               { c1 with content := "##ERROR" }) := by
            unfold recalcMark
            rw [cellAt_mapCell_self, hc]
            rfl
          have hndm : ((recalcMark s a).map Prod.fst).Nodup := by
            rw [(skelEq_recalcMark s a).1]; exact hnd
          have hS2n : nOpen (mapCell (recalcMark s a) a
              (fun c0 => { c0 with errCycle := true })) + 1 = nOpen s := by
            have h2 := nOpen_mapCell_set hndm hcm
              (fun c0 => { c0 with errCycle := true })
            unfold flagBits at h2
            by_cases ht : c.cell_type = CellType.expr <;>
              simp [ht, hr, heb] at h2 <;>
              rw [nOpen_recalcMark s a] at h2 <;> omega
          have hS2flags : ∀ x, x ≠ a → flagsOf (mapCell (recalcMark s a) a
              (fun c0 => { c0 with errCycle := true })) x = flagsOf s x := by
            intro x hx
            rw [flagsOf_mapCell_ne _ hx]
            exact flagsOf_recalcMark s a x
          have hS2fa : flagsOf (mapCell (recalcMark s a) a
              (fun c0 => { c0 with errCycle := true })) a = some (true, true) := by
            rw [flagsOf_mapCell_self, hcm]
            by_cases ht : c.cell_type = CellType.expr <;> simp [ht, hr]
          have hS2keys : ((mapCell (recalcMark s a) a
              (fun c0 => { c0 with errCycle := true })).map Prod.fst) = s.map Prod.fst := by
            rw [keys_mapCell, (skelEq_recalcMark s a).1]
          have hS2nd : ((mapCell (recalcMark s a) a
              (fun c0 => { c0 with errCycle := true })).map Prod.fst).Nodup := by
            rw [hS2keys]; exact hnd
          have hm2 : nOpen (mapCell (recalcMark s a) a
              (fun c0 => { c0 with errCycle := true })) + 1 ≤ fuel := by omega
          obtain ⟨F1, F2, F3⟩ := recalc_foldl_stable fuel ih c.upstream _ hS2nd hm2
          have hS3fa : flagsOf (c.upstream.foldl (fun acc u => Recalculate fuel acc u)
              (mapCell (recalcMark s a) a (fun c0 => { c0 with errCycle := true }))) a =
              some (true, true) := by
            rw [F1 a]; exact hS2fa
          obtain ⟨c3, hc3, hc3r, hc3e⟩ := flagsOf_eq_some hS3fa
          have hS3keys : ((c.upstream.foldl (fun acc u => Recalculate fuel acc u)
              (mapCell (recalcMark s a) a (fun c0 => { c0 with errCycle := true }))).map
                Prod.fst) = s.map Prod.fst := by
            rw [(skelEq_foldl (recalc_skelEq fuel) c.upstream _).1, hS2keys]
          have hS3nd := hS3keys ▸ hnd
          rw [E1, E2, if_pos hr, if_pos hr, if_neg he, if_neg he]
          refine ⟨?_, ?_, ?_⟩
          · intro x
            by_cases hx : x = a
            · subst hx
              rw [flagsOf_mapCell_self, hc3]
              unfold flagsOf
              rw [hc]
              simp [hc3r, hr, heb]
            · rw [flagsOf_mapCell_ne _ hx, F1 x]
              exact hS2flags x hx
          · have h2 := nOpen_mapCell_set hS3nd hc3
              (fun c0 => { c0 with errCycle := false })
            unfold flagBits at h2
            rw [hc3r, hc3e] at h2
            simp at h2
            rw [F2] at h2
            omega
          · rw [F3]
      · have hrb : c.recalculating = false := by
          rw [← Bool.not_eq_true]; exact hr
        have hS2flags := flagsOf_recalcEvalStep s a c
        have hS2n : nOpen (recalcEvalStep s a c) + 1 = nOpen s :=
          nOpen_recalcEvalStep c hnd hc hrb
        have hS2keys : (recalcEvalStep s a c).map Prod.fst = s.map Prod.fst :=
          (skelEq_recalcEvalStep s a c).1
        have hS2nd : ((recalcEvalStep s a c).map Prod.fst).Nodup := by
          rw [hS2keys]; exact hnd
        have hm2 : nOpen (recalcEvalStep s a c) + 1 ≤ fuel := by omega
        obtain ⟨F1, F2, F3⟩ := recalc_foldl_stable fuel ih c.downstream _ hS2nd hm2
        have hS3fa : flagsOf (c.downstream.foldl (fun acc d => Recalculate fuel acc d)
            (recalcEvalStep s a c)) a = some (true, c.errCycle) := by
          rw [F1 a, hS2flags.2, hc]
          rfl
        obtain ⟨c3, hc3, hc3r, hc3e⟩ := flagsOf_eq_some hS3fa
        have hS3keys : ((c.downstream.foldl (fun acc d => Recalculate fuel acc d)
            (recalcEvalStep s a c)).map Prod.fst) = s.map Prod.fst := by
          rw [(skelEq_foldl (recalc_skelEq fuel) c.downstream _).1, hS2keys]
        have hS3nd := hS3keys ▸ hnd
        rw [E1, E2, if_neg hr, if_neg hr]
        refine ⟨?_, ?_, ?_⟩
        · intro x
          by_cases hx : x = a
          · subst hx
            rw [flagsOf_mapCell_self, hc3]
            unfold flagsOf
            rw [hc]
            simp [hc3e, hrb]
          · rw [flagsOf_mapCell_ne _ hx, F1 x]
            exact hS2flags.1 x hx
        · have h2 := nOpen_mapCell_set hS3nd hc3
            (fun c0 => { c0 with recalculating := false })
          unfold flagBits at h2
          rw [hc3r, hc3e] at h2
          simp at h2
          rw [F2] at h2
          omega
        · rw [F3]

theorem recalc_add_stable (s : Sheet) (a : CellAddress)
    (hnd : (s.map Prod.fst).Nodup) (b : Nat) (hb : nOpen s + 1 ≤ b) :
    ∀ k, Recalculate (b + k) s a = Recalculate b s a := by
  intro k
  induction k with
  | zero => rfl
  | succ k ih =>
    have h2 := (recalc_stable (b + k) s a hnd (by omega)).2.2
    rw [show b + (k + 1) = (b + k) + 1 from rfl, h2]
    exact ih

theorem nOpen_lt_recalcFuel (s : Sheet) : nOpen s + 1 ≤ recalcFuel s := by
  have h1 : s.countP (fun kc => !kc.2.recalculating) ≤ s.length :=
    List.countP_le_length _
  have h2 : s.countP (fun kc => !kc.2.errCycle) ≤ s.length :=
    List.countP_le_length _
  unfold nOpen recalcFuel
  omega

theorem recalc_fuel_sufficient (s : Sheet) (a : CellAddress)
    (hnd : (s.map Prod.fst).Nodup) (f : Nat) (hf : recalcFuel s ≤ f) :
    Recalculate f s a = Recalculate (recalcFuel s) s a := by
  have h1 := recalc_add_stable s a hnd (recalcFuel s) (nOpen_lt_recalcFuel s)
    (f - recalcFuel s)
  rw [Nat.add_sub_cancel' hf] at h1
  exact h1

/-! ## Section D: the dependency-graph invariant (claims C6 and C8) -/

/-- A cell's upstream list is exactly what its currently attached formula
references: the reference list of the parsed expression for an expression
cell, and empty in every other situation. -/
def UpOK (c : Cell) : Prop :=
  (∀ e, c.exp = some e → c.cell_type = CellType.expr →
    Expression.upstreamAddrs e = Except.ok c.upstream) ∧
  (c.cell_type ≠ CellType.expr ∨ c.exp = none → c.upstream = [])

/-- The sheet dependency-graph invariant: every upstream or downstream entry
names a materialized cell, upstream lists match the attached formulas, and
the upstream/downstream multigraph is symmetric (with multiplicity). -/
def Inv (s : Sheet) : Prop :=
  (∀ x c, cellAt s x = some c →
    UpOK c ∧
    (∀ u ∈ c.upstream, (cellAt s u).isSome = true) ∧
    (∀ d ∈ c.downstream, (cellAt s d).isSome = true)) ∧
  (∀ x y cx cy, cellAt s x = some cx → cellAt s y = some cy →
    List.count y cx.upstream = List.count x cy.downstream)

/-- The invariant with the formula-matching and upstream-presence conditions
suspended at one address (the cell currently being rewritten). -/
def InvAt (s : Sheet) (a : CellAddress) : Prop :=
  (∀ x c, cellAt s x = some c →
    (x ≠ a → UpOK c) ∧
    (x ≠ a → ∀ u ∈ c.upstream, (cellAt s u).isSome = true) ∧
    (∀ d ∈ c.downstream, (cellAt s d).isSome = true)) ∧
  (∀ x y cx cy, x ≠ a → cellAt s x = some cx → cellAt s y = some cy →
    List.count y cx.upstream = List.count x cy.downstream)

theorem UpOK_congr {c c2 : Cell} (ht : c.cell_type = c2.cell_type)
    (he : c.exp = c2.exp) (hu : c.upstream = c2.upstream) (h : UpOK c2) : UpOK c := by
  constructor
  · intro e hee htt
    rw [hu]
    exact h.1 e (by rw [← he]; exact hee) (by rw [← ht]; exact htt)
  · intro hor
    rw [hu]
    refine h.2 ?_
    rcases hor with h1 | h1
    · exact Or.inl (by rw [← ht]; exact h1)
    · exact Or.inr (by rw [← he]; exact h1)

theorem UpOK_newCell (a : CellAddress) : UpOK (NewCell a) :=
  ⟨fun e he _ => (nomatch he), fun _ => rfl⟩

theorem skelEq_cellAt_some {s t : Sheet} (h : SkelEq s t) {x : CellAddress} {c : Cell}
    (hc : cellAt s x = some c) :
    ∃ c2, cellAt t x = some c2 ∧ c.cell_type = c2.cell_type ∧
      c.upstream = c2.upstream ∧ c.downstream = c2.downstream ∧ c.exp = c2.exp := by
  have h2 := h.2 x
  rw [hc] at h2
  cases hct : cellAt t x with
  | none => rw [hct] at h2; cases h2
  | some c2 =>
    rw [hct] at h2
    have h3 := Option.some.inj h2
    unfold Cell.skel at h3
    rw [Prod.mk.injEq, Prod.mk.injEq, Prod.mk.injEq] at h3
    exact ⟨c2, rfl, h3.1, h3.2.1, h3.2.2.1, h3.2.2.2⟩

theorem skelEq_isSome {s t : Sheet} (h : SkelEq s t) (x : CellAddress) :
    (cellAt s x).isSome = (cellAt t x).isSome := by
  have h2 := h.2 x
  cases hs : cellAt s x <;> cases ht2 : cellAt t x <;> rw [hs, ht2] at h2 <;>
    simp at h2 <;> rfl

/-- The invariant only depends on the keys and skeletons of a sheet. -/
theorem Inv_of_skelEq {s t : Sheet} (h : SkelEq s t) (ht : Inv t) : Inv s := by
  constructor
  · intro x c hc
    obtain ⟨c2, hc2, h1, h2, h3, h4⟩ := skelEq_cellAt_some h hc
    obtain ⟨hok, hup, hdown⟩ := ht.1 x c2 hc2
    refine ⟨UpOK_congr h1 h4 h2 hok, ?_, ?_⟩
    · intro u hu
      rw [skelEq_isSome h u]
      exact hup u (h2 ▸ hu)
    · intro d hd
      rw [skelEq_isSome h d]
      exact hdown d (h3 ▸ hd)
  · intro x y cx cy hcx hcy
    obtain ⟨cx2, hcx2, hx1, hx2, hx3, hx4⟩ := skelEq_cellAt_some h hcx
    obtain ⟨cy2, hcy2, hy1, hy2, hy3, hy4⟩ := skelEq_cellAt_some h hcy
    rw [hx2, hy3]
    exact ht.2 x y cx2 cy2 hcx2 hcy2

/-- Deleting a transient cell with no dependents preserves the invariant. -/
theorem Inv_deleteSelf {s : Sheet} (h : Inv s) (a : CellAddress) :
    Inv (deleteSelfIfNecessary s a) := by
  cases hc : cellAt s a with
  | none => rw [deleteSelf_of_none hc]; exact h
  | some c =>
    by_cases hdel : c.cell_type = CellType.transient ∧ c.downstream = []
    · rw [deleteSelf_of_del hc hdel.1 hdel.2]
      have hne : c.cell_type ≠ CellType.expr := by
        rw [hdel.1]; intro hx; cases hx
      have hup0 : c.upstream = [] := (h.1 a c hc).1.2 (Or.inl hne)
      have hnomem : ∀ x cx, cellAt s x = some cx →
          a ∉ cx.upstream ∧ a ∉ cx.downstream := by
        intro x cx hcx
        constructor
        · have hcnt := h.2 x a cx c hcx hc
          rw [hdel.2] at hcnt
          simp at hcnt
          exact List.count_eq_zero.mp hcnt
        · have hz : List.count a cx.downstream = 0 := by
            have hcnt := h.2 a x c cx hc hcx
            rw [hup0] at hcnt
            simpa using hcnt.symm
          exact List.count_eq_zero.mp hz
      constructor
      · intro x cx hcx
        by_cases hx : x = a
        · rw [hx, cellAt_erase_self] at hcx; cases hcx
        · rw [cellAt_erase_ne s a x hx] at hcx
          obtain ⟨hok, hup, hdown⟩ := h.1 x cx hcx
          refine ⟨hok, ?_, ?_⟩
          · intro u hu
            have hua : u ≠ a := fun heq => (hnomem x cx hcx).1 (heq ▸ hu)
            rw [cellAt_erase_ne s a u hua]
            exact hup u hu
          · intro d hd
            have hda : d ≠ a := fun heq => (hnomem x cx hcx).2 (heq ▸ hd)
            rw [cellAt_erase_ne s a d hda]
            exact hdown d hd
      · intro x y cx cy hcx hcy
        by_cases hx : x = a
        · rw [hx, cellAt_erase_self] at hcx; cases hcx
        · by_cases hy : y = a
          · rw [hy, cellAt_erase_self] at hcy; cases hcy
          · rw [cellAt_erase_ne s a x hx] at hcx
            rw [cellAt_erase_ne s a y hy] at hcy
            exact h.2 x y cx cy hcx hcy
    · rw [deleteSelf_of_keep hc hdel]; exact h

/-- Materializing a fresh zero cell preserves the invariant. -/
theorem Inv_cellOrNewAt {s : Sheet} (h : Inv s) (a : CellAddress) :
    Inv (cellOrNewAt s a) := by
  cases hc : cellAt s a with
  | some c =>
    have he : cellOrNewAt s a = s := by unfold cellOrNewAt; rw [hc]
    rw [he]; exact h
  | none =>
    have hself : cellAt (cellOrNewAt s a) a = some (NewCell a) := by
      rw [cellAt_cellOrNewAt_self, hc]
      rfl
    have habs : ∀ x cx, cellAt s x = some cx →
        a ∉ cx.upstream ∧ a ∉ cx.downstream := by
      intro x cx hcx
      obtain ⟨hok, hup, hdown⟩ := h.1 x cx hcx
      constructor
      · intro hmem
        have h3 := hup a hmem
        rw [hc] at h3
        cases h3
      · intro hmem
        have h3 := hdown a hmem
        rw [hc] at h3
        cases h3
    constructor
    · intro x cx hcx
      by_cases hx : x = a
      · rw [hx] at hcx
        rw [hself] at hcx
        obtain rfl := Option.some.inj hcx
        refine ⟨UpOK_newCell a, ?_, ?_⟩
        · intro u hu
          simp [NewCell] at hu
        · intro d hd
          simp [NewCell] at hd
      · rw [cellAt_cellOrNewAt_ne s a x hx] at hcx
        obtain ⟨hok, hup, hdown⟩ := h.1 x cx hcx
        refine ⟨hok, ?_, ?_⟩
        · intro u hu
          by_cases hu2 : u = a
          · rw [hu2, hself]; rfl
          · rw [cellAt_cellOrNewAt_ne s a u hu2]
            exact hup u hu
        · intro d hd
          by_cases hd2 : d = a
          · rw [hd2, hself]; rfl
          · rw [cellAt_cellOrNewAt_ne s a d hd2]
            exact hdown d hd
    · intro x y cx cy hcx hcy
      by_cases hx : x = a
      · rw [hx] at hcx
        rw [hself] at hcx
        obtain rfl := Option.some.inj hcx
        by_cases hy : y = a
        · rw [hy] at hcy
          rw [hself] at hcy
          obtain rfl := Option.some.inj hcy
          rfl
        · rw [cellAt_cellOrNewAt_ne s a y hy] at hcy
          show List.count y (NewCell a).upstream = List.count x cy.downstream
          rw [hx, List.count_eq_zero.mpr (habs y cy hcy).2]
          rfl
      · rw [cellAt_cellOrNewAt_ne s a x hx] at hcx
        by_cases hy : y = a
        · rw [hy] at hcy
          rw [hself] at hcy
          obtain rfl := Option.some.inj hcy
          show List.count y cx.upstream = List.count x (NewCell a).downstream
          rw [hy, List.count_eq_zero.mpr (habs x cx hcx).1]
          rfl
        · rw [cellAt_cellOrNewAt_ne s a y hy] at hcy
          exact h.2 x y cx cy hcx hcy

/-- The empty sheet satisfies the invariant. -/
theorem Inv_nil : Inv [] :=
  ⟨fun x c hc => (nomatch hc), fun x y cx cy hcx hcy => (nomatch hcx)⟩

theorem InvAt_of_Inv {s : Sheet} (h : Inv s) (a : CellAddress) : InvAt s a :=
  ⟨fun x c hc => ⟨fun _ => (h.1 x c hc).1, fun _ => (h.1 x c hc).2.1,
    (h.1 x c hc).2.2⟩, fun x y cx cy _ hcx hcy => h.2 x y cx cy hcx hcy⟩

theorem isSome_mapCell (s : Sheet) (a : CellAddress) (f : Cell → Cell) :
    ∀ z, (cellAt (mapCell s a f) z).isSome = (cellAt s z).isSome := by
  intro z
  by_cases hz : z = a
  · rw [hz, cellAt_mapCell_self]
    cases cellAt s a <;> rfl
  · rw [cellAt_mapCell_ne _ _ _ _ hz]

/-- Rewriting the suspended cell without touching either dependency list
preserves the suspended invariant. -/
theorem InvAt_mapCell {s : Sheet} {a : CellAddress} (h : InvAt s a) (f : Cell → Cell)
    (hfu : ∀ c, (f c).upstream = c.upstream)
    (hfd : ∀ c, (f c).downstream = c.downstream) :
    InvAt (mapCell s a f) a := by
  have hdesc : ∀ z cz2, cellAt (mapCell s a f) z = some cz2 →
      ∃ cz, cellAt s z = some cz ∧ cz2.upstream = cz.upstream ∧
        cz2.downstream = cz.downstream ∧ (z ≠ a → cz2 = cz) := by
    intro z cz2 hz
    by_cases hza : z = a
    · rw [hza, cellAt_mapCell_self] at hz
      cases hcz : cellAt s a with
      | none => rw [hcz] at hz; cases hz
      | some cz =>
        rw [hcz] at hz
        obtain rfl := Option.some.inj hz
        refine ⟨cz, ?_, hfu cz, hfd cz, fun hne => absurd hza hne⟩
        rw [hza]
        exact hcz
    · rw [cellAt_mapCell_ne _ _ _ _ hza] at hz
      exact ⟨cz2, hz, rfl, rfl, fun _ => rfl⟩
  constructor
  · intro x cx2 hcx2
    obtain ⟨cx, hcx, hu, hd, hid⟩ := hdesc x cx2 hcx2
    obtain ⟨hok, hup, hdown⟩ := h.1 x cx hcx
    refine ⟨?_, ?_, ?_⟩
    · intro hx
      rw [hid hx]
      exact hok hx
    · intro hx u hu2
      rw [isSome_mapCell s a f u]
      exact hup hx u (hu ▸ hu2)
    · intro d hd2
      rw [isSome_mapCell s a f d]
      exact hdown d (hd ▸ hd2)
  · intro x y cx2 cy2 hxa hcx2 hcy2
    obtain ⟨cx, hcx, hux, hdx, h5⟩ := hdesc x cx2 hcx2
    obtain ⟨cy, hcy, huy, hdy, h6⟩ := hdesc y cy2 hcy2
    rw [hux, hdy]
    exact h.2 x y cx cy hxa hcx hcy

/-- Reattaching the suspended cell: if the rewritten upstream list matches the
already-symmetric downstream counts, names only present cells, and satisfies
the formula condition, the full invariant is restored. -/
theorem Inv_finalize {s : Sheet} {a : CellAddress} (h : InvAt s a) (f : Cell → Cell)
    (hfd : ∀ c, (f c).downstream = c.downstream)
    (hcnt : ∀ c, cellAt s a = some c → ∀ y cy, cellAt s y = some cy →
      List.count y (f c).upstream = List.count a cy.downstream)
    (hok : ∀ c, cellAt s a = some c → UpOK (f c))
    (hupk : ∀ c, cellAt s a = some c → ∀ u ∈ (f c).upstream,
      (cellAt s u).isSome = true) :
    Inv (mapCell s a f) := by
  constructor
  · intro x cx2 hcx2
    by_cases hxa : x = a
    · rw [hxa, cellAt_mapCell_self] at hcx2
      cases hcz : cellAt s a with
      | none => rw [hcz] at hcx2; cases hcx2
      | some c =>
        rw [hcz] at hcx2
        obtain rfl := Option.some.inj hcx2
        refine ⟨hok c hcz, ?_, ?_⟩
        · intro u hu
          rw [isSome_mapCell s a f u]
          exact hupk c hcz u hu
        · intro d hd
          rw [isSome_mapCell s a f d]
          rw [hfd] at hd
          exact (h.1 a c hcz).2.2 d hd
    · rw [cellAt_mapCell_ne _ _ _ _ hxa] at hcx2
      obtain ⟨hok2, hup2, hdown2⟩ := h.1 x cx2 hcx2
      refine ⟨hok2 hxa, ?_, ?_⟩
      · intro u hu
        rw [isSome_mapCell s a f u]
        exact hup2 hxa u hu
      · intro d hd
        rw [isSome_mapCell s a f d]
        exact hdown2 d hd
  · intro x y cx2 cy2 hcx2 hcy2
    by_cases hxa : x = a
    · rw [hxa, cellAt_mapCell_self] at hcx2
      cases hcz : cellAt s a with
      | none => rw [hcz] at hcx2; cases hcx2
      | some c =>
        rw [hcz] at hcx2
        obtain rfl := Option.some.inj hcx2
        by_cases hya : y = a
        · rw [hya, cellAt_mapCell_self, hcz] at hcy2
          obtain rfl := Option.some.inj hcy2
          rw [hya, hxa, hfd]
          exact hcnt c hcz a c hcz
        · rw [cellAt_mapCell_ne _ _ _ _ hya] at hcy2
          rw [hxa]
          exact hcnt c hcz y cy2 hcy2
    · rw [cellAt_mapCell_ne _ _ _ _ hxa] at hcx2
      by_cases hya : y = a
      · rw [hya, cellAt_mapCell_self] at hcy2
        cases hcz : cellAt s a with
        | none => rw [hcz] at hcy2; cases hcy2
        | some c =>
          rw [hcz] at hcy2
          obtain rfl := Option.some.inj hcy2
          rw [hfd, hya]
          exact h.2 x a cx2 c hxa hcx2 hcz
      · rw [cellAt_mapCell_ne _ _ _ _ hya] at hcy2
        exact h.2 x y cx2 cy2 hxa hcx2 hcy2

/-- The detach loop of `SetContent`: walking the old upstream list and
removing this cell from each upstream cell's downstream list (each step
followed by the deferred delete-if-transient) drives every inbound
downstream count to zero, while touching no upstream list. -/
theorem detach_fold (a : CellAddress) :
    ∀ (L : List CellAddress) (s : Sheet) (cA : Cell),
    cellAt s a = some cA →
    cA.cell_type = CellType.expr →
    (∀ y cy, cellAt s y = some cy → List.count a cy.downstream = List.count y L) →
    (∀ x y cx cy, x ≠ a → cellAt s x = some cx → cellAt s y = some cy →
      List.count y cx.upstream = List.count x cy.downstream) →
    (∀ x cx, cellAt s x = some cx → UpOK cx) →
    (∀ x cx, cellAt s x = some cx → x ≠ a → ∀ u ∈ cx.upstream,
      (cellAt s u).isSome = true) →
    (∀ x cx, cellAt s x = some cx → ∀ d ∈ cx.downstream,
      (cellAt s d).isSome = true) →
    ∀ r, r = L.foldl (fun acc u => removeDownstream acc u a) s →
    ((∃ cA2, cellAt r a = some cA2 ∧ cA2.cell_type = cA.cell_type ∧
        cA2.upstream = cA.upstream ∧ cA2.exp = cA.exp ∧
        (∀ x, x ≠ a → List.count x cA2.downstream = List.count x cA.downstream) ∧
        List.count a cA2.downstream = 0) ∧
      (∀ y cy, cellAt r y = some cy → List.count a cy.downstream = 0) ∧
      (∀ x y cx cy, x ≠ a → cellAt r x = some cx → cellAt r y = some cy →
        List.count y cx.upstream = List.count x cy.downstream) ∧
      (∀ x cx, cellAt r x = some cx → UpOK cx) ∧
      (∀ x cx, cellAt r x = some cx → x ≠ a → ∀ u ∈ cx.upstream,
        (cellAt r u).isSome = true) ∧
      (∀ x cx, cellAt r x = some cx → ∀ d ∈ cx.downstream,
        (cellAt r d).isSome = true) ∧
      (∀ x cx2, x ≠ a → cellAt r x = some cx2 →
        ∃ cx, cellAt s x = some cx ∧ cx2.upstream = cx.upstream)) := by
  intro L
  induction L with
  | nil =>
    intro s cA hA hAty h2 h3 h4 h5 h6 r hr
    subst hr
    refine ⟨⟨cA, hA, rfl, rfl, rfl, fun x hx => rfl, ?_⟩, ?_, h3, h4, h5, h6, ?_⟩
    · rw [h2 a cA hA]
      exact List.count_nil a
    · intro y cy hcy
      rw [h2 y cy hcy]
      exact List.count_nil y
    · intro x cx2 hx hcx
      exact ⟨cx2, hcx, rfl⟩
  | cons u L2 ih =>
    intro s cA hA hAty h2 h3 h4 h5 h6 r hr
    rw [List.foldl_cons] at hr
    cases hcu : cellAt s u with
    | none =>
      have hstep : removeDownstream s u a = s := by
        unfold removeDownstream
        rw [mapCell_of_none hcu, deleteSelf_of_none hcu]
      rw [hstep] at hr
      refine ih s cA hA hAty ?_ h3 h4 h5 h6 r hr
      intro y cy hcy
      have hyu : y ≠ u := by
        intro heq
        rw [heq, hcu] at hcy
        cases hcy
      rw [h2 y cy hcy, List.count_cons_of_ne hyu]
    | some cu =>
      have hmem : a ∈ cu.downstream := by
        have hcnt := h2 u cu hcu
        rw [List.count_cons_self] at hcnt
        by_contra hno
        rw [List.count_eq_zero.mpr hno] at hcnt
        omega
      obtain ⟨cu2, hcu2def⟩ : ∃ c2, c2 =
          ({ cu with downstream := swapRemoveAddr cu.downstream a } : Cell) := ⟨_, rfl⟩
      have hcu2down : cu2.downstream = swapRemoveAddr cu.downstream a := by rw [hcu2def]
      have hcu2up : cu2.upstream = cu.upstream := by rw [hcu2def]
      have hcu2ty : cu2.cell_type = cu.cell_type := by rw [hcu2def]
      have hcu2exp : cu2.exp = cu.exp := by rw [hcu2def]
      obtain ⟨t, htdef⟩ : ∃ t, t = mapCell s u
          (fun c => { c with downstream := swapRemoveAddr c.downstream a }) := ⟨_, rfl⟩
      have htu : cellAt t u = some cu2 := by
        rw [htdef, cellAt_mapCell_self, hcu, hcu2def]
        rfl
      have htne : ∀ z, z ≠ u → cellAt t z = cellAt s z := by
        intro z hz
        rw [htdef, cellAt_mapCell_ne _ _ _ _ hz]
      have hpres : ∀ z, (cellAt t z).isSome = (cellAt s z).isSome := by
        intro z
        rw [htdef]
        exact isSome_mapCell s u _ z
      have hdesc : ∀ z cz2, cellAt t z = some cz2 → ∃ cz, cellAt s z = some cz ∧
          cz2.cell_type = cz.cell_type ∧ cz2.upstream = cz.upstream ∧
          cz2.exp = cz.exp ∧
          (∀ w, w ≠ a → List.count w cz2.downstream = List.count w cz.downstream) ∧
          (∀ d ∈ cz2.downstream, d ∈ cz.downstream) := by
        intro z cz2 hz
        by_cases hzu : z = u
        · rw [hzu, htu] at hz
          obtain rfl := Option.some.inj hz
          refine ⟨cu, ?_, hcu2ty, hcu2up, hcu2exp, ?_, ?_⟩
          · rw [hzu]
            exact hcu
          · intro w hw
            rw [hcu2down]
            exact swapRemove_count_ne hw
          · intro d hd
            rw [hcu2down] at hd
            exact swapRemove_subset d hd
        · rw [htne z hzu] at hz
          exact ⟨cz2, hz, rfl, rfl, rfl, fun w hw => rfl, fun d hd => hd⟩
      have ht2 : ∀ y cy, cellAt t y = some cy →
          List.count a cy.downstream = List.count y L2 := by
        intro y cy hcy
        by_cases hyu : y = u
        · rw [hyu, htu] at hcy
          obtain rfl := Option.some.inj hcy
          rw [hcu2down, swapRemove_count_self hmem]
          have hcnt := h2 u cu hcu
          rw [List.count_cons_self] at hcnt
          rw [hyu]
          omega
        · rw [htne y hyu] at hcy
          rw [h2 y cy hcy, List.count_cons_of_ne hyu]
      have ht3 : ∀ x y cx cy, x ≠ a → cellAt t x = some cx → cellAt t y = some cy →
          List.count y cx.upstream = List.count x cy.downstream := by
        intro x y cx cy hx hcx hcy
        obtain ⟨cx0, hcx0, e1, hux, e2, e3, e4⟩ := hdesc x cx hcx
        obtain ⟨cy0, hcy0, f1, f2, f3, hcnty, f4⟩ := hdesc y cy hcy
        rw [hux, hcnty x hx]
        exact h3 x y cx0 cy0 hx hcx0 hcy0
      have ht4 : ∀ x cx, cellAt t x = some cx → UpOK cx := by
        intro x cx hcx
        obtain ⟨cx0, hcx0, hty, hux, hex, e1, e2⟩ := hdesc x cx hcx
        exact UpOK_congr hty hex hux (h4 x cx0 hcx0)
      have ht5 : ∀ x cx, cellAt t x = some cx → x ≠ a → ∀ v ∈ cx.upstream,
          (cellAt t v).isSome = true := by
        intro x cx hcx hx v hv
        obtain ⟨cx0, hcx0, e1, hux, e2, e3, e4⟩ := hdesc x cx hcx
        rw [hpres v]
        exact h5 x cx0 hcx0 hx v (hux ▸ hv)
      have ht6 : ∀ x cx, cellAt t x = some cx → ∀ d ∈ cx.downstream,
          (cellAt t d).isSome = true := by
        intro x cx hcx d hd
        obtain ⟨cx0, hcx0, e1, e2, e3, e4, hsub⟩ := hdesc x cx hcx
        rw [hpres d]
        exact h6 x cx0 hcx0 d (hsub d hd)
      have htA : ∃ cA1, cellAt t a = some cA1 ∧ cA1.cell_type = cA.cell_type ∧
          cA1.upstream = cA.upstream ∧ cA1.exp = cA.exp ∧
          (∀ x, x ≠ a → List.count x cA1.downstream = List.count x cA.downstream) := by
        by_cases hua : u = a
        · have hcuA : cu = cA := by
            rw [hua] at hcu
            rw [hcu] at hA
            exact Option.some.inj hA
          refine ⟨cu2, ?_, ?_, ?_, ?_, ?_⟩
          · rw [← hua]
            exact htu
          · rw [hcu2ty, hcuA]
          · rw [hcu2up, hcuA]
          · rw [hcu2exp, hcuA]
          · intro x hx
            rw [hcu2down, swapRemove_count_ne hx, hcuA]
        · refine ⟨cA, ?_, rfl, rfl, rfl, fun x hx => rfl⟩
          rw [htne a (fun heq => hua heq.symm)]
          exact hA
      obtain ⟨cA1, htAc, htAty, htAup, htAexp, htAcnt⟩ := htA
      have hAty1 : cA1.cell_type = CellType.expr := by rw [htAty]; exact hAty
      have hrd : removeDownstream s u a = deleteSelfIfNecessary t u := by
        rw [htdef]
        rfl
      by_cases hdel : cu2.cell_type = CellType.transient ∧ cu2.downstream = []
      · have hs2 : removeDownstream s u a = eraseCell t u := by
          rw [hrd]
          exact deleteSelf_of_del htu hdel.1 hdel.2
        rw [hs2] at hr
        have hua : u ≠ a := by
          intro heq
          rw [heq] at htu
          rw [htAc] at htu
          have hid := Option.some.inj htu
          have h7 : cA1.cell_type = CellType.transient := by
            rw [hid]
            exact hdel.1
          rw [h7] at hAty1
          cases hAty1
        have hau : a ≠ u := fun heq => hua heq.symm
        have hcu2upnil : cu2.upstream = [] := by
          refine (ht4 u cu2 htu).2 (Or.inl ?_)
          rw [hdel.1]
          intro hx
          cases hx
        have hzero : ∀ x cx, cellAt t x = some cx →
            List.count u cx.downstream = 0 ∧ (x ≠ a → List.count u cx.upstream = 0) := by
          intro x cx hcx
          constructor
          · have hcnt := ht3 u x cu2 cx hua htu hcx
            rw [hcu2upnil] at hcnt
            simpa using hcnt.symm
          · intro hx
            have hcnt := ht3 x u cx cu2 hx hcx htu
            rw [hdel.2] at hcnt
            simpa using hcnt
        have herane : ∀ z, z ≠ u → cellAt (eraseCell t u) z = cellAt t z :=
          fun z hz => cellAt_erase_ne t u z hz
        have hihA : cellAt (eraseCell t u) a = some cA1 := by
          rw [herane a hau]
          exact htAc
        have hih2 : ∀ y cy, cellAt (eraseCell t u) y = some cy →
            List.count a cy.downstream = List.count y L2 := by
          intro y cy hcy
          have hyu : y ≠ u := by
            intro heq
            rw [heq, cellAt_erase_self] at hcy
            cases hcy
          rw [herane y hyu] at hcy
          exact ht2 y cy hcy
        have hih3 : ∀ x y cx cy, x ≠ a → cellAt (eraseCell t u) x = some cx →
            cellAt (eraseCell t u) y = some cy →
            List.count y cx.upstream = List.count x cy.downstream := by
          intro x y cx cy hx hcx hcy
          have hxu : x ≠ u := by
            intro heq
            rw [heq, cellAt_erase_self] at hcx
            cases hcx
          have hyu : y ≠ u := by
            intro heq
            rw [heq, cellAt_erase_self] at hcy
            cases hcy
          rw [herane x hxu] at hcx
          rw [herane y hyu] at hcy
          exact ht3 x y cx cy hx hcx hcy
        have hih4 : ∀ x cx, cellAt (eraseCell t u) x = some cx → UpOK cx := by
          intro x cx hcx
          have hxu : x ≠ u := by
            intro heq
            rw [heq, cellAt_erase_self] at hcx
            cases hcx
          rw [herane x hxu] at hcx
          exact ht4 x cx hcx
        have hih5 : ∀ x cx, cellAt (eraseCell t u) x = some cx → x ≠ a →
            ∀ v ∈ cx.upstream, (cellAt (eraseCell t u) v).isSome = true := by
          intro x cx hcx hx v hv
          have hxu : x ≠ u := by
            intro heq
            rw [heq, cellAt_erase_self] at hcx
            cases hcx
          rw [herane x hxu] at hcx
          have hvu : v ≠ u := by
            intro heq
            have hz := (hzero x cx hcx).2 hx
            rw [List.count_eq_zero] at hz
            exact hz (heq ▸ hv)
          rw [herane v hvu]
          exact ht5 x cx hcx hx v hv
        have hih6 : ∀ x cx, cellAt (eraseCell t u) x = some cx →
            ∀ d ∈ cx.downstream, (cellAt (eraseCell t u) d).isSome = true := by
          intro x cx hcx d hd
          have hxu : x ≠ u := by
            intro heq
            rw [heq, cellAt_erase_self] at hcx
            cases hcx
          rw [herane x hxu] at hcx
          have hdu : d ≠ u := by
            intro heq
            have hz := (hzero x cx hcx).1
            rw [List.count_eq_zero] at hz
            exact hz (heq ▸ hd)
          rw [herane d hdu]
          exact ht6 x cx hcx d hd
        obtain ⟨K1, K2, K3, K4, K5, K6, K7⟩ :=
          ih (eraseCell t u) cA1 hihA hAty1 hih2 hih3 hih4 hih5 hih6 r hr
        refine ⟨?_, K2, K3, K4, K5, K6, ?_⟩
        · obtain ⟨cA2, k1a, k1b, k1c, k1d, k1e, k1f⟩ := K1
          refine ⟨cA2, k1a, by rw [k1b, htAty], by rw [k1c, htAup],
            by rw [k1d, htAexp], ?_, k1f⟩
          intro x hx
          rw [k1e x hx, htAcnt x hx]
        · intro x cx2 hx hcx2
          obtain ⟨cx1, hcx1, hup1⟩ := K7 x cx2 hx hcx2
          have hxu : x ≠ u := by
            intro heq
            rw [heq, cellAt_erase_self] at hcx1
            cases hcx1
          rw [herane x hxu] at hcx1
          obtain ⟨cx0, hcx0, e1, hup0, e2, e3, e4⟩ := hdesc x cx1 hcx1
          exact ⟨cx0, hcx0, by rw [hup1, hup0]⟩
      · have hs2 : removeDownstream s u a = t := by
          rw [hrd]
          exact deleteSelf_of_keep htu hdel
        rw [hs2] at hr
        obtain ⟨K1, K2, K3, K4, K5, K6, K7⟩ :=
          ih t cA1 htAc hAty1 ht2 ht3 ht4 ht5 ht6 r hr
        refine ⟨?_, K2, K3, K4, K5, K6, ?_⟩
        · obtain ⟨cA2, k1a, k1b, k1c, k1d, k1e, k1f⟩ := K1
          refine ⟨cA2, k1a, by rw [k1b, htAty], by rw [k1c, htAup],
            by rw [k1d, htAexp], ?_, k1f⟩
          intro x hx
          rw [k1e x hx, htAcnt x hx]
        · intro x cx2 hx hcx2
          obtain ⟨cx1, hcx1, hup1⟩ := K7 x cx2 hx hcx2
          obtain ⟨cx0, hcx0, e1, hup0, e2, e3, e4⟩ := hdesc x cx1 hcx1
          exact ⟨cx0, hcx0, by rw [hup1, hup0]⟩

/-- The attach loop of `SetContent`: materializing each referenced cell and
appending this cell to its downstream list raises every inbound downstream
count to the reference multiplicity. -/
theorem attach_fold (a : CellAddress) :
    ∀ (L P : List CellAddress) (s : Sheet),
    (∃ cA, cellAt s a = some cA ∧ cA.cell_type = CellType.expr ∧ cA.upstream = []) →
    (∀ y cy, cellAt s y = some cy → List.count a cy.downstream = List.count y P) →
    (∀ x y cx cy, x ≠ a → cellAt s x = some cx → cellAt s y = some cy →
      List.count y cx.upstream = List.count x cy.downstream) →
    (∀ x cx, cellAt s x = some cx → x ≠ a → UpOK cx) →
    (∀ x cx, cellAt s x = some cx → x ≠ a → ∀ u ∈ cx.upstream,
      (cellAt s u).isSome = true) →
    (∀ x cx, cellAt s x = some cx → ∀ d ∈ cx.downstream,
      (cellAt s d).isSome = true) →
    (∀ u ∈ P, (cellAt s u).isSome = true) →
    ∀ r, r = L.foldl (fun acc u => addDownstream (cellOrNewAt acc u) u a) s →
    ((∃ cA2, cellAt r a = some cA2 ∧ cA2.cell_type = CellType.expr ∧
        cA2.upstream = []) ∧
     (∀ y cy, cellAt r y = some cy →
       List.count a cy.downstream = List.count y (P ++ L)) ∧
     (∀ x y cx cy, x ≠ a → cellAt r x = some cx → cellAt r y = some cy →
       List.count y cx.upstream = List.count x cy.downstream) ∧
     (∀ x cx, cellAt r x = some cx → x ≠ a → UpOK cx) ∧
     (∀ x cx, cellAt r x = some cx → x ≠ a → ∀ u ∈ cx.upstream,
       (cellAt r u).isSome = true) ∧
     (∀ x cx, cellAt r x = some cx → ∀ d ∈ cx.downstream,
       (cellAt r d).isSome = true) ∧
     (∀ u ∈ P ++ L, (cellAt r u).isSome = true)) := by
  intro L
  induction L with
  | nil =>
    intro P s hA h2 h3 h4 h5 h6 h7 r hr
    subst hr
    rw [List.append_nil]
    exact ⟨hA, h2, h3, h4, h5, h6, h7⟩
  | cons u L2 ih =>
    intro P s hA h2 h3 h4 h5 h6 h7 r hr
    rw [List.foldl_cons] at hr
    have hPu : P ++ u :: L2 = (P ++ [u]) ++ L2 := by
      rw [List.append_assoc]
      rfl
    rw [hPu]
    obtain ⟨cA, hAc, hAty, hAup⟩ := hA
    cases hcu : cellAt s u with
    | some cu =>
      have hnew : cellOrNewAt s u = s := by
        unfold cellOrNewAt
        rw [hcu]
      have ht : addDownstream (cellOrNewAt s u) u a =
          mapCell s u (fun c => { c with downstream := c.downstream ++ [a] }) := by
        unfold addDownstream
        rw [hnew]
      rw [ht] at hr
      obtain ⟨t, htdef⟩ : ∃ t, t = mapCell s u
          (fun c => { c with downstream := c.downstream ++ [a] }) := ⟨_, rfl⟩
      rw [← htdef] at hr
      obtain ⟨cu2, hcu2def⟩ : ∃ c2, c2 =
          ({ cu with downstream := cu.downstream ++ [a] } : Cell) := ⟨_, rfl⟩
      have hcu2down : cu2.downstream = cu.downstream ++ [a] := by rw [hcu2def]
      have hcu2up : cu2.upstream = cu.upstream := by rw [hcu2def]
      have hcu2ty : cu2.cell_type = cu.cell_type := by rw [hcu2def]
      have hcu2exp : cu2.exp = cu.exp := by rw [hcu2def]
      have htu : cellAt t u = some cu2 := by
        rw [htdef, cellAt_mapCell_self, hcu, hcu2def]
        rfl
      have htne : ∀ z, z ≠ u → cellAt t z = cellAt s z := by
        intro z hz
        rw [htdef, cellAt_mapCell_ne _ _ _ _ hz]
      have hpres : ∀ z, (cellAt t z).isSome = (cellAt s z).isSome := by
        intro z
        rw [htdef]
        exact isSome_mapCell s u _ z
      have hdesc : ∀ z cz2, cellAt t z = some cz2 → ∃ cz, cellAt s z = some cz ∧
          cz2.cell_type = cz.cell_type ∧ cz2.upstream = cz.upstream ∧
          cz2.exp = cz.exp ∧
          (∀ w, w ≠ a → List.count w cz2.downstream = List.count w cz.downstream) ∧
          (∀ d ∈ cz2.downstream, d ∈ cz.downstream ∨ d = a) := by
        intro z cz2 hz
        by_cases hzu : z = u
        · rw [hzu, htu] at hz
          obtain rfl := Option.some.inj hz
          refine ⟨cu, ?_, hcu2ty, hcu2up, hcu2exp, ?_, ?_⟩
          · rw [hzu]
            exact hcu
          · intro w hw
            rw [hcu2down, List.count_append]
            simp [List.count_cons, hw]
          · intro d hd
            rw [hcu2down] at hd
            rcases List.mem_append.mp hd with hd1 | hd1
            · exact Or.inl hd1
            · exact Or.inr (List.mem_singleton.mp hd1)
        · rw [htne z hzu] at hz
          exact ⟨cz2, hz, rfl, rfl, rfl, fun w hw => rfl, fun d hd => Or.inl hd⟩
      have htA2 : ∃ cA2, cellAt t a = some cA2 ∧ cA2.cell_type = CellType.expr ∧
          cA2.upstream = [] := by
        by_cases hua : u = a
        · have hcuA : cu = cA := by
            rw [hua] at hcu
            rw [hcu] at hAc
            exact Option.some.inj hAc
          refine ⟨cu2, ?_, ?_, ?_⟩
          · rw [← hua]
            exact htu
          · rw [hcu2ty, hcuA]
            exact hAty
          · rw [hcu2up, hcuA]
            exact hAup
        · refine ⟨cA, ?_, hAty, hAup⟩
          rw [htne a (fun heq => hua heq.symm)]
          exact hAc
      have ht2 : ∀ y cy, cellAt t y = some cy →
          List.count a cy.downstream = List.count y (P ++ [u]) := by
        intro y cy hcy
        by_cases hyu : y = u
        · rw [hyu, htu] at hcy
          obtain rfl := Option.some.inj hcy
          rw [hcu2down, hyu, List.count_append, List.count_append, h2 u cu hcu]
          simp [List.count_cons]
        · rw [htne y hyu] at hcy
          rw [h2 y cy hcy, List.count_append]
          simp [List.count_cons, hyu]
      have ht3 : ∀ x y cx cy, x ≠ a → cellAt t x = some cx → cellAt t y = some cy →
          List.count y cx.upstream = List.count x cy.downstream := by
        intro x y cx cy hx hcx hcy
        obtain ⟨cx0, hcx0, e1, hux, e2, e3, e4⟩ := hdesc x cx hcx
        obtain ⟨cy0, hcy0, f1, f2, f3, hcnty, f4⟩ := hdesc y cy hcy
        rw [hux, hcnty x hx]
        exact h3 x y cx0 cy0 hx hcx0 hcy0
      have ht4 : ∀ x cx, cellAt t x = some cx → x ≠ a → UpOK cx := by
        intro x cx hcx hx
        obtain ⟨cx0, hcx0, hty, hux, hex, e1, e2⟩ := hdesc x cx hcx
        exact UpOK_congr hty hex hux (h4 x cx0 hcx0 hx)
      have ht5 : ∀ x cx, cellAt t x = some cx → x ≠ a → ∀ v ∈ cx.upstream,
          (cellAt t v).isSome = true := by
        intro x cx hcx hx v hv
        obtain ⟨cx0, hcx0, e1, hux, e2, e3, e4⟩ := hdesc x cx hcx
        rw [hpres v]
        exact h5 x cx0 hcx0 hx v (hux ▸ hv)
      have ht6 : ∀ x cx, cellAt t x = some cx → ∀ d ∈ cx.downstream,
          (cellAt t d).isSome = true := by
        intro x cx hcx d hd
        obtain ⟨cx0, hcx0, e1, e2, e3, e4, hsub⟩ := hdesc x cx hcx
        rcases hsub d hd with hd1 | hd1
        · rw [hpres d]
          exact h6 x cx0 hcx0 d hd1
        · rw [hd1, hpres a, hAc]
          rfl
      have ht7 : ∀ v ∈ P ++ [u], (cellAt t v).isSome = true := by
        intro v hv
        rcases List.mem_append.mp hv with hv1 | hv1
        · rw [hpres v]
          exact h7 v hv1
        · rw [List.mem_singleton.mp hv1, hpres u, hcu]
          rfl
      exact ih (P ++ [u]) t ⟨htA2.choose, htA2.choose_spec⟩ ht2 ht3 ht4 ht5 ht6 ht7 r hr
    | none =>
      have hua : u ≠ a := by
        intro heq
        rw [heq, hAc] at hcu
        cases hcu
      have huP : u ∉ P := by
        intro hmem
        have h8 := h7 u hmem
        rw [hcu] at h8
        cases h8
      have hsN : ∀ z, cellAt (s ++ [(u, NewCell u)]) z =
          if u = z then some (NewCell u) else cellAt s z := by
        intro z
        cases hz : cellAt s z with
        | some cz =>
          rw [cellAt_append_of_some hz]
          by_cases huz : u = z
          · exfalso
            rw [huz, hz] at hcu
            cases hcu
          · rw [if_neg huz]
        | none =>
          rw [cellAt_append_of_none hz u (NewCell u)]
      have ht : addDownstream (cellOrNewAt s u) u a =
          mapCell (s ++ [(u, NewCell u)]) u
            (fun c => { c with downstream := c.downstream ++ [a] }) := by
        unfold addDownstream cellOrNewAt
        rw [hcu]
      rw [ht] at hr
      obtain ⟨t, htdef⟩ : ∃ t, t = mapCell (s ++ [(u, NewCell u)]) u
          (fun c => { c with downstream := c.downstream ++ [a] }) := ⟨_, rfl⟩
      rw [← htdef] at hr
      obtain ⟨nc, hncdef⟩ : ∃ c2, c2 =
          ({ NewCell u with downstream := (NewCell u).downstream ++ [a] } : Cell) :=
        ⟨_, rfl⟩
      have hncup : nc.upstream = [] := by rw [hncdef]; rfl
      have hncdown : nc.downstream = [a] := by rw [hncdef]; rfl
      have hncty : nc.cell_type = CellType.transient := by rw [hncdef]; rfl
      have hncexp : nc.exp = none := by rw [hncdef]; rfl
      have htu : cellAt t u = some nc := by
        rw [htdef, cellAt_mapCell_self, hsN u, if_pos rfl, hncdef]
        rfl
      have htne : ∀ z, z ≠ u → cellAt t z = cellAt s z := by
        intro z hz
        rw [htdef, cellAt_mapCell_ne _ _ _ _ hz, hsN z,
          if_neg (fun heq => hz heq.symm)]
      have hpres : ∀ z, z ≠ u → (cellAt t z).isSome = (cellAt s z).isSome := by
        intro z hz
        rw [htne z hz]
      have htA2 : ∃ cA2, cellAt t a = some cA2 ∧ cA2.cell_type = CellType.expr ∧
          cA2.upstream = [] := by
        refine ⟨cA, ?_, hAty, hAup⟩
        rw [htne a (fun heq => hua heq.symm)]
        exact hAc
      have ht2 : ∀ y cy, cellAt t y = some cy →
          List.count a cy.downstream = List.count y (P ++ [u]) := by
        intro y cy hcy
        by_cases hyu : y = u
        · rw [hyu, htu] at hcy
          obtain rfl := Option.some.inj hcy
          rw [hncdown, hyu, List.count_append, List.count_eq_zero.mpr huP]
          simp [List.count_cons]
        · rw [htne y hyu] at hcy
          rw [h2 y cy hcy, List.count_append]
          simp [List.count_cons, hyu]
      have ht3 : ∀ x y cx cy, x ≠ a → cellAt t x = some cx → cellAt t y = some cy →
          List.count y cx.upstream = List.count x cy.downstream := by
        intro x y cx cy hx hcx hcy
        by_cases hxu : x = u
        · rw [hxu, htu] at hcx
          obtain rfl := Option.some.inj hcx
          rw [hncup, List.count_nil]
          by_cases hyu : y = u
          · rw [hyu, htu] at hcy
            obtain rfl := Option.some.inj hcy
            rw [hncdown]
            have hxa2 : x ∉ [a] := by
              intro hmem
              exact hx (List.mem_singleton.mp hmem)
            rw [List.count_eq_zero.mpr hxa2]
          · rw [htne y hyu] at hcy
            have hnod : u ∉ cy.downstream := by
              intro hmem
              have h8 := h6 y cy hcy u hmem
              rw [hcu] at h8
              cases h8
            rw [hxu, List.count_eq_zero.mpr hnod]
        · rw [htne x hxu] at hcx
          by_cases hyu : y = u
          · rw [hyu, htu] at hcy
            obtain rfl := Option.some.inj hcy
            rw [hncdown]
            have hnou : u ∉ cx.upstream := by
              intro hmem
              have h8 := h5 x cx hcx hx u hmem
              rw [hcu] at h8
              cases h8
            have hxa2 : x ∉ [a] := by
              intro hmem
              exact hx (List.mem_singleton.mp hmem)
            rw [hyu, List.count_eq_zero.mpr hnou, List.count_eq_zero.mpr hxa2]
          · rw [htne y hyu] at hcy
            exact h3 x y cx cy hx hcx hcy
      have ht4 : ∀ x cx, cellAt t x = some cx → x ≠ a → UpOK cx := by
        intro x cx hcx hx
        by_cases hxu : x = u
        · rw [hxu, htu] at hcx
          obtain rfl := Option.some.inj hcx
          constructor
          · intro e he
            rw [hncexp] at he
            cases he
          · intro h9
            exact hncup
        · rw [htne x hxu] at hcx
          exact h4 x cx hcx hx
      have ht5 : ∀ x cx, cellAt t x = some cx → x ≠ a → ∀ v ∈ cx.upstream,
          (cellAt t v).isSome = true := by
        intro x cx hcx hx v hv
        by_cases hxu : x = u
        · rw [hxu, htu] at hcx
          obtain rfl := Option.some.inj hcx
          rw [hncup] at hv
          cases hv
        · rw [htne x hxu] at hcx
          by_cases hvu : v = u
          · rw [hvu, htu]
            rfl
          · rw [hpres v hvu]
            exact h5 x cx hcx hx v hv
      have ht6 : ∀ x cx, cellAt t x = some cx → ∀ d ∈ cx.downstream,
          (cellAt t d).isSome = true := by
        intro x cx hcx d hd
        by_cases hxu : x = u
        · rw [hxu, htu] at hcx
          obtain rfl := Option.some.inj hcx
          rw [hncdown] at hd
          rw [List.mem_singleton.mp hd, htne a (fun heq => hua heq.symm), hAc]
          rfl
        · rw [htne x hxu] at hcx
          by_cases hdu : d = u
          · rw [hdu, htu]
            rfl
          · rw [hpres d hdu]
            exact h6 x cx hcx d hd
      have ht7 : ∀ v ∈ P ++ [u], (cellAt t v).isSome = true := by
        intro v hv
        by_cases hvu : v = u
        · rw [hvu, htu]
          rfl
        · rcases List.mem_append.mp hv with hv1 | hv1
          · rw [hpres v hvu]
            exact h7 v hv1
          · exact absurd (List.mem_singleton.mp hv1) hvu
      exact ih (P ++ [u]) t htA2 ht2 ht3 ht4 ht5 ht6 ht7 r hr

/-- The detach phase of `SetContent` on the cell at `a`. -/
def scDetach (s : Sheet) (a : CellAddress) (c : Cell) : Sheet :=
  c.upstream.foldl (fun acc u => removeDownstream acc u a) s

/-- The upstream-clearing phase of `SetContent`. -/
def scReset (s : Sheet) (a : CellAddress) (c : Cell) : Sheet :=
  mapCell (scDetach s a c) a (fun c0 => { c0 with upstream := [] })

/-- The content-classification phase of `SetContent` (everything before the
deferred `Recalculate` and `deleteSelfIfNecessary`). -/
def scClassify (s : Sheet) (a : CellAddress) (c : Cell) (content : String) : Sheet :=
  if content = "" then
    mapCell (scReset s a c) a (fun c0 => { NewCell a with downstream := c0.downstream })
  else if content.data.head? = some '=' then
    match ParseExpression content with
    | .error err =>
      mapCell (mapCell (scReset s a c) a (fun c0 =>
        { c0 with cell_type := CellType.expr, expstr := content, exp := none })) a
        (fun c0 => { c0 with expErr := some err, content := "##ERROR" })
    | .ok expr =>
      match expr.upstreamAddrs with
      | .error err =>
        mapCell (mapCell (scReset s a c) a (fun c0 =>
          { c0 with cell_type := CellType.expr, expstr := content, exp := none })) a
          (fun c0 => { c0 with expErr := some err, content := "##ERROR" })
      | .ok upAddrs =>
        mapCell (upAddrs.foldl (fun acc u => addDownstream (cellOrNewAt acc u) u a)
          (mapCell (scReset s a c) a (fun c0 =>
            { c0 with cell_type := CellType.expr, expstr := content, exp := none }))) a
          (fun c0 => { c0 with upstream := upAddrs, exp := some expr })
  else
    match parseGoFloat content with
    | some f => mapCell (scReset s a c) a (fun c0 =>
        { c0 with cell_type := CellType.val, val := f, content := fmtFloat f })
    | none => mapCell (scReset s a c) a (fun c0 =>
        { c0 with cell_type := CellType.str, content := content })

/-- Unfolding equation for `SetContentCell` at a present cell. -/
theorem SetContentCell_eq {s : Sheet} {a : CellAddress} {c : Cell} {content : String}
    (hc : cellAt s a = some c) :
    SetContentCell s a content =
      deleteSelfIfNecessary
        (Recalculate (recalcFuel (scClassify s a c content))
          (scClassify s a c content) a) a := by
  unfold SetContentCell
  rw [hc]
  rfl

/-- The detach phase starting from an invariant sheet. -/
theorem detach_from_Inv {s : Sheet} (h : Inv s) {a : CellAddress} {c : Cell}
    (hc : cellAt s a = some c) :
    ∀ r, r = scDetach s a c →
    ((∃ cA2, cellAt r a = some cA2 ∧ cA2.cell_type = c.cell_type ∧
        cA2.upstream = c.upstream ∧ cA2.exp = c.exp ∧
        (∀ x, x ≠ a → List.count x cA2.downstream = List.count x c.downstream) ∧
        List.count a cA2.downstream = 0) ∧
      (∀ y cy, cellAt r y = some cy → List.count a cy.downstream = 0) ∧
      (∀ x y cx cy, x ≠ a → cellAt r x = some cx → cellAt r y = some cy →
        List.count y cx.upstream = List.count x cy.downstream) ∧
      (∀ x cx, cellAt r x = some cx → UpOK cx) ∧
      (∀ x cx, cellAt r x = some cx → x ≠ a → ∀ u ∈ cx.upstream,
        (cellAt r u).isSome = true) ∧
      (∀ x cx, cellAt r x = some cx → ∀ d ∈ cx.downstream,
        (cellAt r d).isSome = true)) := by
  intro r hr
  unfold scDetach at hr
  by_cases hup : c.upstream = []
  · rw [hup, List.foldl_nil] at hr
    subst hr
    refine ⟨⟨c, hc, rfl, rfl, rfl, fun x hx => rfl, ?_⟩, ?_, ?_, ?_, ?_, ?_⟩
    · have hs := h.2 a a c c hc hc
      rw [hup] at hs
      simpa using hs.symm
    · intro y cy hcy
      have hs := h.2 a y c cy hc hcy
      rw [hup] at hs
      simpa using hs.symm
    · intro x y cx cy hx hcx hcy
      exact h.2 x y cx cy hcx hcy
    · intro x cx hcx
      exact (h.1 x cx hcx).1
    · intro x cx hcx hx
      exact (h.1 x cx hcx).2.1
    · intro x cx hcx
      exact (h.1 x cx hcx).2.2
  · have hty : c.cell_type = CellType.expr := by
      by_contra hty2
      exact hup ((h.1 a c hc).1.2 (Or.inl hty2))
    obtain ⟨K1, K2, K3, K4, K5, K6, K7⟩ := detach_fold a c.upstream s c hc hty
      (fun y cy hcy => (h.2 a y c cy hc hcy).symm)
      (fun x y cx cy hx hcx hcy => h.2 x y cx cy hcx hcy)
      (fun x cx hcx => (h.1 x cx hcx).1)
      (fun x cx hcx hx => (h.1 x cx hcx).2.1)
      (fun x cx hcx => (h.1 x cx hcx).2.2)
      r hr
    exact ⟨K1, K2, K3, K4, K5, K6⟩

/-- After detaching and clearing the upstream list, the suspended invariant
holds, the cell at `a` keeps its type and expression with an empty upstream
list, and no cell lists `a` downstream any more. -/
theorem scReset_facts {s : Sheet} {a : CellAddress} {c : Cell} (h : Inv s)
    (hc : cellAt s a = some c) :
    InvAt (scReset s a c) a ∧
    (∃ cR, cellAt (scReset s a c) a = some cR ∧ cR.upstream = [] ∧
      cR.cell_type = c.cell_type ∧ cR.exp = c.exp ∧
      (∀ x, x ≠ a → List.count x cR.downstream = List.count x c.downstream) ∧
      List.count a cR.downstream = 0) ∧
    (∀ y cy, cellAt (scReset s a c) y = some cy →
      List.count a cy.downstream = 0) := by
  obtain ⟨⟨cA2, k1a, k1b, k1c, k1d, k1e, k1f⟩, K2, K3, K4, K5, K6⟩ :=
    detach_from_Inv h hc _ rfl
  have hra : cellAt (scReset s a c) a = some { cA2 with upstream := [] } := by
    unfold scReset
    rw [cellAt_mapCell_self, k1a]
    rfl
  have hrne : ∀ z, z ≠ a → cellAt (scReset s a c) z = cellAt (scDetach s a c) z := by
    intro z hz
    unfold scReset
    rw [cellAt_mapCell_ne _ _ _ _ hz]
  have hpres : ∀ z, (cellAt (scReset s a c) z).isSome =
      (cellAt (scDetach s a c) z).isSome := by
    intro z
    unfold scReset
    exact isSome_mapCell _ _ _ z
  refine ⟨⟨?_, ?_⟩, ⟨{ cA2 with upstream := [] }, hra, rfl, k1b, k1d, k1e, k1f⟩, ?_⟩
  · intro x cx hcx
    by_cases hx : x = a
    · rw [hx, hra] at hcx
      obtain rfl := Option.some.inj hcx
      refine ⟨fun hxa => absurd hx hxa, fun hxa => absurd hx hxa, ?_⟩
      intro d hd
      rw [hpres d]
      exact K6 a cA2 k1a d hd
    · rw [hrne x hx] at hcx
      refine ⟨fun _ => K4 x cx hcx, fun _ u hu => ?_, fun d hd => ?_⟩
      · rw [hpres u]
        exact K5 x cx hcx hx u hu
      · rw [hpres d]
        exact K6 x cx hcx d hd
  · intro x y cx cy hxa hcx hcy
    rw [hrne x hxa] at hcx
    by_cases hy : y = a
    · rw [hy, hra] at hcy
      obtain rfl := Option.some.inj hcy
      show _ = List.count x cA2.downstream
      rw [hy]
      exact K3 x a cx cA2 hxa hcx k1a
    · rw [hrne y hy] at hcy
      exact K3 x y cx cy hxa hcx hcy
  · intro y cy hcy
    by_cases hy : y = a
    · rw [hy, hra] at hcy
      obtain rfl := Option.some.inj hcy
      show List.count a cA2.downstream = 0
      exact k1f
    · rw [hrne y hy] at hcy
      exact K2 y cy hcy

/-- The classification phase restores the full invariant, whatever the new
content is. -/
theorem Inv_scClassify {s : Sheet} {a : CellAddress} {c : Cell} {content : String}
    (h : Inv s) (hc : cellAt s a = some c) :
    Inv (scClassify s a c content) := by
  obtain ⟨hIA, ⟨cR, hcR, hcRup, hcRty, hcRexp, hcRcnt, hcRcnta⟩, hzero⟩ :=
    scReset_facts h hc
  unfold scClassify
  by_cases hemp : content = ""
  · rw [if_pos hemp]
    refine Inv_finalize hIA _ (fun c0 => rfl) ?_ ?_ ?_
    · intro c0 hc0 y cy hcy
      show List.count y (NewCell a).upstream = _
      rw [show (NewCell a).upstream = [] from rfl, List.count_nil]
      exact (hzero y cy hcy).symm
    · intro c0 hc0
      constructor
      · intro e he
        have he2 : (none : Option Expression) = some e := he
        cases he2
      · intro h9
        rfl
    · intro c0 hc0 u hu
      have hu2 : u ∈ ([] : List CellAddress) := hu
      cases hu2
  · rw [if_neg hemp]
    by_cases heq : content.data.head? = some '='
    · rw [if_pos heq]
      obtain ⟨S4, hS4def⟩ : ∃ t, t = mapCell (scReset s a c) a (fun c0 =>
          { c0 with cell_type := CellType.expr, expstr := content, exp := none }) :=
        ⟨_, rfl⟩
      rw [← hS4def]
      have hIA4 : InvAt S4 a := by
        rw [hS4def]
        exact InvAt_mapCell hIA _ (fun c0 => rfl) (fun c0 => rfl)
      have hS4a : cellAt S4 a =
          some { cR with cell_type := CellType.expr, expstr := content, exp := none } := by
        rw [hS4def, cellAt_mapCell_self, hcR]
        rfl
      have hS4ne : ∀ z, z ≠ a → cellAt S4 z = cellAt (scReset s a c) z := by
        intro z hz
        rw [hS4def, cellAt_mapCell_ne _ _ _ _ hz]
      have hzero4 : ∀ y cy, cellAt S4 y = some cy →
          List.count a cy.downstream = 0 := by
        intro y cy hcy
        by_cases hy : y = a
        · rw [hy, hS4a] at hcy
          obtain rfl := Option.some.inj hcy
          show List.count a cR.downstream = 0
          exact hcRcnta
        · rw [hS4ne y hy] at hcy
          exact hzero y cy hcy
      split
      · refine Inv_finalize hIA4 _ (fun c0 => rfl) ?_ ?_ ?_
        · intro c0 hc0 y cy hcy
          rw [hS4a] at hc0
          obtain rfl := Option.some.inj hc0
          show List.count y cR.upstream = _
          rw [hcRup, List.count_nil]
          exact (hzero4 y cy hcy).symm
        · intro c0 hc0
          rw [hS4a] at hc0
          obtain rfl := Option.some.inj hc0
          constructor
          · intro e he
            have he2 : (none : Option Expression) = some e := he
            cases he2
          · intro h9
            show cR.upstream = []
            exact hcRup
        · intro c0 hc0 u hu
          rw [hS4a] at hc0
          obtain rfl := Option.some.inj hc0
          have hu2 : u ∈ ([] : List CellAddress) := by
            rw [← hcRup]
            exact hu
          cases hu2
      · split
        · refine Inv_finalize hIA4 _ (fun c0 => rfl) ?_ ?_ ?_
          · intro c0 hc0 y cy hcy
            rw [hS4a] at hc0
            obtain rfl := Option.some.inj hc0
            show List.count y cR.upstream = _
            rw [hcRup, List.count_nil]
            exact (hzero4 y cy hcy).symm
          · intro c0 hc0
            rw [hS4a] at hc0
            obtain rfl := Option.some.inj hc0
            constructor
            · intro e he
              have he2 : (none : Option Expression) = some e := he
              cases he2
            · intro h9
              show cR.upstream = []
              exact hcRup
          · intro c0 hc0 u hu
            rw [hS4a] at hc0
            obtain rfl := Option.some.inj hc0
            have hu2 : u ∈ ([] : List CellAddress) := by
              rw [← hcRup]
              exact hu
            cases hu2
        · rename_i d1 expr hpe d2 upAddrs hua
          obtain ⟨A1, A2, A3, A4, A5, A6, A7⟩ := attach_fold a upAddrs [] S4
            ⟨{ cR with cell_type := CellType.expr, expstr := content, exp := none },
              hS4a, rfl, hcRup⟩
            (fun y cy hcy => by
              rw [List.count_nil]
              exact hzero4 y cy hcy)
            hIA4.2
            (fun x cx hcx hx => (hIA4.1 x cx hcx).1 hx)
            (fun x cx hcx hx => (hIA4.1 x cx hcx).2.1 hx)
            (fun x cx hcx => (hIA4.1 x cx hcx).2.2)
            (fun u hu => (nomatch hu))
            _ rfl
          refine Inv_finalize
            ⟨fun x cx hcx => ⟨fun hx => A4 x cx hcx hx,
              fun hx u hu => A5 x cx hcx hx u hu, A6 x cx hcx⟩, A3⟩
            _ (fun c0 => rfl) ?_ ?_ ?_
          · intro c0 hc0 y cy hcy
            show List.count y upAddrs = _
            have hA2 := A2 y cy hcy
            rw [List.nil_append] at hA2
            exact hA2.symm
          · intro c0 hc0
            obtain ⟨cA5, hA5c, hA5ty, hA5up⟩ := A1
            rw [hA5c] at hc0
            obtain rfl := Option.some.inj hc0
            constructor
            · intro e he hty2
              have he2 : some expr = some e := he
              obtain rfl := Option.some.inj he2
              exact hua
            · intro h9
              rcases h9 with h9 | h9
              · exact absurd hA5ty h9
              · have h92 : (some expr : Option Expression) = none := h9
                cases h92
          · intro c0 hc0 u hu
            have hu2 : u ∈ [] ++ upAddrs := by
              rw [List.nil_append]
              exact hu
            exact A7 u hu2
    · rw [if_neg heq]
      split
      · refine Inv_finalize hIA _ (fun c0 => rfl) ?_ ?_ ?_
        · intro c0 hc0 y cy hcy
          rw [hcR] at hc0
          obtain rfl := Option.some.inj hc0
          show List.count y cR.upstream = _
          rw [hcRup, List.count_nil]
          exact (hzero y cy hcy).symm
        · intro c0 hc0
          rw [hcR] at hc0
          obtain rfl := Option.some.inj hc0
          constructor
          · intro e he hty2
            have hty3 : CellType.val = CellType.expr := hty2
            cases hty3
          · intro h9
            show cR.upstream = []
            exact hcRup
        · intro c0 hc0 u hu
          rw [hcR] at hc0
          obtain rfl := Option.some.inj hc0
          have hu2 : u ∈ ([] : List CellAddress) := by
            rw [← hcRup]
            exact hu
          cases hu2
      · refine Inv_finalize hIA _ (fun c0 => rfl) ?_ ?_ ?_
        · intro c0 hc0 y cy hcy
          rw [hcR] at hc0
          obtain rfl := Option.some.inj hc0
          show List.count y cR.upstream = _
          rw [hcRup, List.count_nil]
          exact (hzero y cy hcy).symm
        · intro c0 hc0
          rw [hcR] at hc0
          obtain rfl := Option.some.inj hc0
          constructor
          · intro e he hty2
            have hty3 : CellType.str = CellType.expr := hty2
            cases hty3
          · intro h9
            show cR.upstream = []
            exact hcRup
        · intro c0 hc0 u hu
          rw [hcR] at hc0
          obtain rfl := Option.some.inj hc0
          have hu2 : u ∈ ([] : List CellAddress) := by
            rw [← hcRup]
            exact hu
          cases hu2

/-- `SetContent` on a cell preserves the invariant. -/
theorem Inv_SetContentCell {s : Sheet} (h : Inv s) (a : CellAddress)
    (content : String) : Inv (SetContentCell s a content) := by
  cases hc : cellAt s a with
  | none =>
    have he : SetContentCell s a content = s := by
      unfold SetContentCell
      rw [hc]
    rw [he]
    exact h
  | some c =>
    rw [SetContentCell_eq hc]
    exact Inv_deleteSelf
      (Inv_of_skelEq (recalc_skelEq _ _ a) (Inv_scClassify h hc)) a

/-- `SetContent` at the sheet level preserves the invariant. -/
theorem Inv_SetContent {s : Sheet} (h : Inv s) (addr content : String) :
    Inv (SetContent s addr content).2 := by
  unfold SetContent
  split
  · exact h
  · split
    · split
      · exact h
      · exact Inv_SetContentCell (Inv_cellOrNewAt h _) _ _
    · exact Inv_SetContentCell (Inv_cellOrNewAt h _) _ _

/-- Every sheet reachable from the empty sheet by `SetContent` calls
satisfies the dependency-graph invariant. -/
theorem Inv_runOps (ops : List (String × String)) : Inv (runOps ops) := by
  unfold runOps
  have hgen : ∀ (l : List (String × String)) (s : Sheet), Inv s →
      Inv (l.foldl (fun s p => (SetContent s p.1 p.2).2) s) := by
    intro l
    induction l with
    | nil => intro s hs; exact hs
    | cons p t ih =>
      intro s hs
      rw [List.foldl_cons]
      exact ih _ (Inv_SetContent hs p.1 p.2)
  exact hgen ops [] Inv_nil

theorem eq_nil_of_count_zero {l : List CellAddress}
    (h : ∀ x, List.count x l = 0) : l = [] := by
  cases l with
  | nil => rfl
  | cons d t =>
    have h2 := h d
    rw [List.count_cons_self] at h2
    omega

/-- Clearing a present cell: deleted when no other cell lists it downstream,
otherwise retained as a transient cell with zero value and empty display. -/
theorem clear_cell_spec {s : Sheet} (h : Inv s) {a : CellAddress} {c : Cell}
    (hc : cellAt s a = some c) :
    ((∀ x ∈ c.downstream, x = a) → cellAt (SetContentCell s a "") a = none) ∧
    ((∃ x ∈ c.downstream, x ≠ a) →
      ∃ c2, cellAt (SetContentCell s a "") a = some c2 ∧
        c2.cell_type = CellType.transient ∧ c2.Value = Except.ok 0 ∧
        c2.Content = "") := by
  rw [SetContentCell_eq hc]
  obtain ⟨hIA, ⟨cR, hcR, hcRup, hcRty, hcRexp, hcRcnt, hcRcnta⟩, hzero⟩ :=
    scReset_facts h hc
  have hS3eq : scClassify s a c "" = mapCell (scReset s a c) a
      (fun c0 => { NewCell a with downstream := c0.downstream }) := by
    unfold scClassify
    rw [if_pos rfl]
  have hS3a : cellAt (scClassify s a c "") a =
      some { NewCell a with downstream := cR.downstream } := by
    rw [hS3eq, cellAt_mapCell_self, hcR]
    rfl
  have hrec := recalc_skelEq (recalcFuel (scClassify s a c ""))
    (scClassify s a c "") a
  obtain ⟨cF, hcF, hFty, hFdown⟩ : ∃ cF,
      cellAt (Recalculate (recalcFuel (scClassify s a c ""))
        (scClassify s a c "") a) a = some cF ∧
      cF.cell_type = CellType.transient ∧ cF.downstream = cR.downstream := by
    have h2 := hrec.2 a
    rw [hS3a] at h2
    cases hcF : cellAt (Recalculate (recalcFuel (scClassify s a c ""))
        (scClassify s a c "") a) a with
    | none => rw [hcF] at h2; cases h2
    | some cF =>
      rw [hcF] at h2
      have h3 := Option.some.inj h2
      unfold Cell.skel at h3
      rw [Prod.mk.injEq, Prod.mk.injEq, Prod.mk.injEq] at h3
      exact ⟨cF, rfl, h3.1, h3.2.2.1⟩
  constructor
  · intro hall
    have hnil : cF.downstream = [] := by
      rw [hFdown]
      apply eq_nil_of_count_zero
      intro x
      by_cases hx : x = a
      · rw [hx]
        exact hcRcnta
      · rw [hcRcnt x hx, List.count_eq_zero]
        intro hmem
        exact hx (hall x hmem)
    rw [deleteSelf_of_del hcF hFty hnil]
    exact cellAt_erase_self _ a
  · intro hex
    obtain ⟨x, hxmem, hxne⟩ := hex
    have hne : ¬(cF.cell_type = CellType.transient ∧ cF.downstream = []) := by
      intro hk
      have h4 := hcRcnt x hxne
      rw [← hFdown, hk.2] at h4
      rw [List.count_nil] at h4
      exact List.count_eq_zero.mp h4.symm hxmem
    rw [deleteSelf_of_keep hcF hne]
    refine ⟨cF, hcF, hFty, ?_, ?_⟩
    · unfold Cell.Value
      rw [hFty]
    · unfold Cell.Content
      rw [hFty]

/-- **C6**: after every finite sequence of `Sheet.SetContent` calls (starting
from `NewSheet()`), the dependency graph is symmetric and consistent: a cell
`y` occurs in a cell `x`'s upstream list (with multiplicity) exactly as often
as `x` occurs in `y`'s downstream list; a cell's upstream list is exactly the
reference list of its currently attached formula, and is empty for
non-formula cells and for formulas whose parse or reference resolution
failed (in which case no expression is attached); and every upstream or
downstream entry names a materialized cell. -/
theorem C6_graph_symmetry (ops : List (String × String)) :
    (∀ x y cx cy, cellAt (runOps ops) x = some cx →
      cellAt (runOps ops) y = some cy →
      List.count y cx.upstream = List.count x cy.downstream) ∧
    (∀ x cx e, cellAt (runOps ops) x = some cx → cx.cell_type = CellType.expr →
      cx.exp = some e → Expression.upstreamAddrs e = Except.ok cx.upstream) ∧
    (∀ x cx, cellAt (runOps ops) x = some cx →
      (cx.cell_type ≠ CellType.expr ∨ cx.exp = none) → cx.upstream = []) ∧
    (∀ x cx, cellAt (runOps ops) x = some cx →
      (∀ u ∈ cx.upstream, (cellAt (runOps ops) u).isSome = true) ∧
      (∀ d ∈ cx.downstream, (cellAt (runOps ops) d).isSome = true)) := by
  obtain ⟨h1, h2⟩ := Inv_runOps ops
  refine ⟨h2, ?_, ?_, ?_⟩
  · intro x cx e hcx hty hexp
    exact (h1 x cx hcx).1.1 e hexp hty
  · intro x cx hcx hor
    exact (h1 x cx hcx).1.2 hor
  · intro x cx hcx
    exact ⟨(h1 x cx hcx).2.1, (h1 x cx hcx).2.2⟩

/-- **C7**: every `Recalculate` cascade (hence every `SetContent` call, whose
deferred recalculation is exactly `Recalculate` at fuel `recalcFuel`)
terminates on every finite sheet, cyclic dependency graphs included: on a
sheet with no duplicate keys, recursion depth `2·cells + 2` — one visit per
cell plus one error-marking revisit per cycle member, as guarded by the two
per-cell flags — always suffices, in that any larger recursion budget
computes the same sheet; and the cascade restores both traversal flags of
every cell on exit, so re-entry is bounded in every enclosing cascade. -/
theorem C7_bounded_recalculation (s : Sheet) (a : CellAddress)
    (hnd : (s.map Prod.fst).Nodup) (f : Nat) (hf : recalcFuel s ≤ f) :
    Recalculate f s a = Recalculate (recalcFuel s) s a ∧
    (∀ x, (cellAt (Recalculate f s a) x).map
        (fun c0 => (c0.recalculating, c0.errCycle)) =
      (cellAt s x).map (fun c0 => (c0.recalculating, c0.errCycle))) := by
  have h1 := recalc_fuel_sufficient s a hnd f hf
  refine ⟨h1, ?_⟩
  intro x
  rw [h1]
  have h2 := (recalc_stable (recalcFuel s) s a hnd (nOpen_lt_recalcFuel s)).1 x
  unfold flagsOf at h2
  exact h2

def cycPair : Sheet :=
  [(⟨"A", 1⟩,
    { cell_type := CellType.expr, addr := ⟨"A", 1⟩, content := "", val := 0,
      expstr := "=A2", exp := some (.mk .ID none none "A2"), expErr := none,
      upstream := [⟨"A", 2⟩], downstream := [⟨"A", 2⟩], recalculating := false,
      errCycle := false }),
   (⟨"A", 2⟩,
    { cell_type := CellType.expr, addr := ⟨"A", 2⟩, content := "", val := 0,
      expstr := "=A1", exp := some (.mk .ID none none "A1"), expErr := none,
      upstream := [⟨"A", 1⟩], downstream := [⟨"A", 1⟩], recalculating := false,
      errCycle := false })]

theorem C7_bounded_recalculation_witness :
    (cycPair.map Prod.fst).Nodup ∧ recalcFuel cycPair ≤ 9 ∧
    (Recalculate 9 cycPair ⟨"A", 1⟩ =
        Recalculate (recalcFuel cycPair) cycPair ⟨"A", 1⟩ ∧
      (∀ x, (cellAt (Recalculate 9 cycPair ⟨"A", 1⟩) x).map
          (fun c0 => (c0.recalculating, c0.errCycle)) =
        (cellAt cycPair x).map (fun c0 => (c0.recalculating, c0.errCycle)))) :=
  ⟨by simp [cycPair], by norm_num [recalcFuel, cycPair],
    C7_bounded_recalculation cycPair ⟨"A", 1⟩ (by simp [cycPair]) 9
      (by norm_num [recalcFuel, cycPair])⟩

/-- **C8**: `SetContent(addr, "")` on an existing cell of a reachable sheet:
if no other cell references it (every downstream entry is the cell itself,
so its downstream set minus self-references is empty) the cell is removed
from the materialized set; if some other cell still references it, it is
retained as a transient cell whose `Value` is 0 without error and whose
display `Content` is the empty string. -/
theorem C8_clear_cell (ops : List (String × String)) (addr : String)
    (a : CellAddress) (c : Cell)
    (ha : CellAddr addr = Except.ok a)
    (hc : cellAt (runOps ops) a = some c) :
    (SetContent (runOps ops) addr "").1 = Except.ok () ∧
    ((∀ x ∈ c.downstream, x = a) →
      cellAt (SetContent (runOps ops) addr "").2 a = none) ∧
    ((∃ x ∈ c.downstream, x ≠ a) →
      ∃ c2, cellAt (SetContent (runOps ops) addr "").2 a = some c2 ∧
        c2.cell_type = CellType.transient ∧ c2.Value = Except.ok 0 ∧
        c2.Content = "") := by
  have hcn : cellOrNewAt (runOps ops) a = runOps ops := by
    unfold cellOrNewAt
    rw [hc]
  have hsc : SetContent (runOps ops) addr "" =
      (Except.ok (), SetContentCell (cellOrNewAt (runOps ops) a) a "") := by
    unfold SetContent
    rw [ha]
    show (if ("" : String) = "" then
        match cellAt (runOps ops) a with
        | none => (Except.ok (), runOps ops)
        | some _ => (Except.ok (), SetContentCell (cellOrNewAt (runOps ops) a) a "")
      else (Except.ok (), SetContentCell (cellOrNewAt (runOps ops) a) a "")) = _
    rw [if_pos rfl, hc]
  rw [hcn] at hsc
  rw [hsc]
  obtain ⟨hdel2, hkeep2⟩ := clear_cell_spec (Inv_runOps ops) hc
  exact ⟨rfl, hdel2, hkeep2⟩

def c8cell : Cell :=
  { cell_type := CellType.val, addr := ⟨"A", 1⟩, content := "5.000000", val := 5,
    expstr := "", exp := none, expErr := none, upstream := [],
    downstream := [⟨"A", 2⟩], recalculating := false, errCycle := false }

theorem C8_clear_cell_witness :
    CellAddr "A1" = Except.ok ⟨"A", 1⟩ ∧
    cellAt (runOps [("A1", "5"), ("A2", "=A1")]) ⟨"A", 1⟩ = some c8cell ∧
    ((SetContent (runOps [("A1", "5"), ("A2", "=A1")]) "A1" "").1 = Except.ok () ∧
     ((∀ x ∈ c8cell.downstream, x = ⟨"A", 1⟩) →
       cellAt (SetContent (runOps [("A1", "5"), ("A2", "=A1")]) "A1" "").2
         ⟨"A", 1⟩ = none) ∧
     ((∃ x ∈ c8cell.downstream, x ≠ ⟨"A", 1⟩) →
       ∃ c2, cellAt (SetContent (runOps [("A1", "5"), ("A2", "=A1")]) "A1" "").2
           ⟨"A", 1⟩ = some c2 ∧
         c2.cell_type = CellType.transient ∧ c2.Value = Except.ok 0 ∧
         c2.Content = "")) :=
  ⟨rfl, by with_unfolding_all rfl,
    C8_clear_cell [("A1", "5"), ("A2", "=A1")] "A1" ⟨"A", 1⟩ c8cell rfl
      (by with_unfolding_all rfl)⟩

end NineSheet
